import Mathlib

/-
Verification of prepare_app.py, a six-step pipeline that prepares a Splunk
application directory for packaging: verify_structure, clean_app,
fix_app_conf, fix_meta_files, set_permissions, create_package.

The filesystem is modelled as a list of entries, each holding a path
(list of name components relative to the application root, [] being the
root itself), a directory flag, a content and a numeric mode.  The
configuration file default/app.conf is modelled at the parsed level
(configparser round trip): a document is a list of sections, each a list
of key/value pairs, with keys already in the lower-cased form configparser
stores.  A file whose bytes configparser cannot parse is modelled by the
text constructor.  Exceptions of the python code are modelled as Option
error values produced by each step body; the per-step try/except blocks
correspond to dropping that error component.  Process-level state (current
working directory, the sibling tar.gz produced by create_package) lives in
a World structure around the tree.
-/

namespace Prep

/-- Does list q start with list p (p is an initial segment of q)?  Used to
model recursive directory removal: shutil.rmtree deletes a path and every
path below it. -/
def startsWithPath : List String → List String → Bool
  | [], _ => true
  | _ :: _, [] => false
  | a :: as, b :: bs => (a == b) && startsWithPath as bs

/-- Does the continuation match any suffix of the name?  Implements the
star wildcard: star consumes zero or more characters. -/
def matchStar (k : List Char → Bool) : List Char → Bool
  | [] => k []
  | c :: cs => k (c :: cs) || matchStar k cs

/-- fnmatch-style glob matching restricted to the star wildcard, the only
metacharacter appearing in the patterns of clean_app.  Star matches any
(possibly empty) sequence of characters of a single name component. -/
def globMatch : List Char → List Char → Bool
  | [], n => n.isEmpty
  | '*' :: ps, n => matchStar (globMatch ps) n
  | _ :: _, [] => false
  | q :: ps, c :: cs => (q == c) && globMatch ps cs

/-- Index of the last dot in a list of characters, if any. -/
def rfindDot : List Char → Option Nat
  | [] => none
  | c :: rest =>
    match rfindDot rest with
    | some i => some (i + 1)
    | none => if c = '.' then some 0 else none

/-- The suffix of a file name, following pathlib.PurePath.suffix: the part
of the name from the last dot on, provided that dot is neither the first
nor the last character; otherwise the empty string. -/
def pySuffix (name : String) : String :=
  let cs := name.toList
  match rfindDot cs with
  | some i => if 0 < i ∧ i < cs.length - 1 then String.mk (cs.drop i) else ""
  | none => ""

/-- A parsed configuration document: sections in file order, each a section
name with its key/value pairs (keys lower-cased as configparser stores
them). -/
abbrev ConfigDoc := List (String × List (String × String))

/-- Does the document have key k directly inside a section named s? -/
def docHasKey (d : ConfigDoc) (s k : String) : Bool :=
  d.any (fun sec => sec.1 == s && sec.2.any (fun kv => kv.1 == k))

/-- The key manipulation of fix_app_conf at the document level: if section
install contains key install_source_checksum, delete that key from the
install section; otherwise leave the document as it is.  (The DEFAULT
fallback mechanism of configparser is outside the modelled dialect.) -/
def removeChecksum (d : ConfigDoc) : ConfigDoc :=
  if docHasKey d "install" "install_source_checksum" then
    d.map (fun sec =>
      if sec.1 == "install" then
        (sec.1, sec.2.filter (fun kv => !(kv.1 == "install_source_checksum")))
      else sec)
  else d

/-- All (section, key, value) triples of a document, in order. -/
def docPairs (d : ConfigDoc) : List (String × String × String) :=
  d.flatMap (fun sec => sec.2.map (fun kv => (sec.1, kv.1, kv.2)))

/-- File content: either plain text bytes, or a configparser-parseable
configuration document. -/
inductive Content where
  | text (s : String)
  | ini (d : ConfigDoc)
deriving DecidableEq

/-- One filesystem entry: its path relative to the application root ([]
being the root itself), whether it is a directory, its content (ignored
for directories) and its permission mode. -/
structure Entry where
  path : List String
  isDir : Bool
  content : Content
  mode : Nat
deriving DecidableEq

/-- A filesystem tree: the list of its entries. -/
abbrev FS := List Entry

/-- Does an entry exist at path p (os.path / pathlib exists)? -/
def pexists : FS → List String → Bool
  | [], _ => false
  | e :: es, p => (e.path == p) || pexists es p

/-- Is there a directory at path p? -/
def isDirAt : FS → List String → Bool
  | [], _ => false
  | e :: es, p => ((e.path == p) && e.isDir) || isDirAt es p

/-- Is there a non-directory at path p? -/
def isFileAt : FS → List String → Bool
  | [], _ => false
  | e :: es, p => ((e.path == p) && !e.isDir) || isFileAt es p

/-- Content of the entry at path p, if present. -/
def contentAt : FS → List String → Option Content
  | [], _ => none
  | e :: es, p => if e.path == p then some e.content else contentAt es p

/-- os.unlink / Path.unlink: remove the entry at path p. -/
def unlink (fs : FS) (p : List String) : FS :=
  fs.filter (fun e => !(e.path == p))

/-- shutil.rmtree: remove the entry at path p together with everything
below it. -/
def rmtree (fs : FS) (p : List String) : FS :=
  fs.filter (fun e => !(startsWithPath p e.path))

/-- os.chmod: set the mode of the entry at path p. -/
def chmodAt (fs : FS) (p : List String) (m : Nat) : FS :=
  fs.map (fun e => if e.path == p then { e with mode := m } else e)

/-- open(p, "w") followed by f.write(c): overwrite the content of the file
at p, or create it (creation mode stands for the pre-chmod default; every
write in the program is followed by an explicit chmod). -/
def writeFileAt (fs : FS) (p : List String) (c : Content) : FS :=
  if pexists fs p then
    fs.map (fun e => if e.path == p then { e with content := c } else e)
  else fs ++ [⟨p, false, c, 0o666⟩]

/-- One level of Path.mkdir(parents=True, exist_ok=True): succeed if a
directory is already at p, fail if a non-directory occupies p, create the
directory otherwise (creation mode stands for the pre-umask default). -/
def ensureDirAt (fs : FS) (p : List String) : FS × Option Unit :=
  if isDirAt fs p then (fs, none)
  else if pexists fs p then (fs, some ())
  else (fs ++ [⟨p, true, Content.text "", 0o777⟩], none)

/-- Last name component of an entry (empty for the root). -/
def entryName (e : Entry) : String :=
  e.path.getLast?.getD ""

-- Permission constants of SplunkAppPrep.__init__.
def dirPerms : Nat := 0o755
def filePerms : Nat := 0o644
def execPerms : Nat := 0o755
def execFiles : List String := [".py", ".sh"]

/-- The glob patterns clean_app removes, in source order. -/
def patternsToRemove : List String :=
  ["*.pyc", "__pycache__", ".DS_Store", "*.swp", "*~", ".git",
   ".gitignore", "*.tmp", "*.log"]

/-- Does an entry match a pattern under Path.rglob: its final name
component matches the glob (the root, whose path is empty, never does)? -/
def entryMatches (pat : String) (e : Entry) : Bool :=
  match e.path.getLast? with
  | some n => globMatch pat.toList n.toList
  | none => false

/-- All paths matching one pattern in the tree as it stands when the
pattern is reached: an eager snapshot of the pattern's candidate matches.
Path.rglob itself is a lazy generator — it re-reads each directory only
when the walk reaches it, so it never yields a match beneath a directory
deleted earlier in the same pattern's iteration; rglobVisit below follows
that walk exactly.  The snapshot may therefore include paths already gone
when visited (run through the no-op branch of the loop body), which is why
the event count is studied on the lazy walk. -/
def matchPaths (fs : FS) (pat : String) : List (List String) :=
  (fs.filter (entryMatches pat)).map (fun e => e.path)

/-- State threaded through clean_app: the tree, the number of
informational Removed events emitted, the number of entries actually
deleted, and the pending exception if a deletion raised. -/
structure CleanState where
  fs : FS
  logs : Nat
  removed : Nat
  err : Option Unit
deriving DecidableEq

/-- The body of the inner loop of clean_app at one matched path: if a file
is there, unlink it; else if a directory is there, rmtree it; in either
case the deletion may raise (fail oracle), which aborts all further
iterations; finally log Removed — the log line runs even when the match no
longer exists and nothing was deleted. -/
def visitC (fail : List String → Bool) (s : CleanState) (p : List String) :
    CleanState :=
  match s.err with
  | some _ => s
  | none =>
    if isFileAt s.fs p then
      if fail p then { s with err := some () }
      else { s with fs := unlink s.fs p, removed := s.removed + 1,
                    logs := s.logs + 1 }
    else if isDirAt s.fs p then
      if fail p then { s with err := some () }
      else { s with fs := rmtree s.fs p, removed := s.removed + 1,
                    logs := s.logs + 1 }
    else { s with logs := s.logs + 1 }

/-- One pattern of clean_app over the eager snapshot of candidate matches
(see matchPaths; cleanPatternLazy below follows the generator exactly); a
pending exception skips the whole pattern, modelling the single try block
around both loops. -/
def cleanPatternC (fail : List String → Bool) (pat : String)
    (s : CleanState) : CleanState :=
  match s.err with
  | some _ => s
  | none => (matchPaths s.fs pat).foldl (visitC fail) s

/-- clean_app with an injectable deletion-failure oracle. -/
def clean_app_run (fail : List String → Bool) (fs : FS) : CleanState :=
  patternsToRemove.foldl (fun s pat => cleanPatternC fail pat s)
    ⟨fs, 0, 0, none⟩

/-- The oracle of the executed program: pure-model deletions do not
raise. -/
def noFail : List String → Bool := fun _ => false

/-- clean_app as executed: pure-model deletions do not raise. -/
def clean_app (fs : FS) : CleanState :=
  clean_app_run noFail fs

/-- Is p a direct child of the directory path D: one component longer with
D as its prefix?  The walk of Path.rglob yields matches as children of the
directories it reaches. -/
def isChildOf (D p : List String) : Bool :=
  !(p.isEmpty) && (p.dropLast == D)

/-- The children of directory D whose name matches the pattern, read from
the tree as it stands when the walk reaches D (one scandir call). -/
def scanMatches (fs : FS) (D : List String) (pat : String) :
    List (List String) :=
  (fs.filter (fun e => isChildOf D e.path && entryMatches pat e)).map
    (fun e => e.path)

/-- The subdirectories of D in the current tree, listed only after D's own
matches have been processed, as the recursive walk does. -/
def childDirs (fs : FS) (D : List String) : List (List String) :=
  (fs.filter (fun e => isChildOf D e.path && e.isDir)).map
    (fun e => e.path)

/-- The lazy generator of Path.rglob interleaved with the loop body of
clean_app: a depth-first worklist of directories; reaching a directory,
scan it for matching children and run the loop body (visitC) on each, then
list its subdirectories from the tree as it now stands and walk into them.
A directory deleted by an earlier visit of the same pattern is therefore
never descended into, and the matches beneath it are never yielded.  The
fuel only bounds the number of directories reached: each directory entry
is reached at most once, so fs.length + 1 steps always complete the
walk. -/
def rglobVisit (fail : List String → Bool) (pat : String) :
    Nat → List (List String) → CleanState → CleanState
  | 0, _, s => s
  | _ + 1, [], s => s
  | n + 1, D :: work, s =>
    match s.err with
    | some _ => s
    | none =>
      let s2 := (scanMatches s.fs D pat).foldl (visitC fail) s
      rglobVisit fail pat n (childDirs s2.fs D ++ work) s2

/-- One pattern of clean_app under the lazy generator semantics of
Path.rglob, walking from the application root; a pending exception skips
the whole pattern, modelling the single try block around both loops. -/
def cleanPatternLazy (fail : List String → Bool) (pat : String)
    (s : CleanState) : CleanState :=
  match s.err with
  | some _ => s
  | none => rglobVisit fail pat (s.fs.length + 1) [[]] s

/-- clean_app under the lazy generator semantics of Path.rglob, with the
oracle of the executed program (pure-model deletions do not raise). -/
def clean_app_lazy (fs : FS) : CleanState :=
  patternsToRemove.foldl (fun s pat => cleanPatternLazy noFail pat s)
    ⟨fs, 0, 0, none⟩

def appConfP : List String := ["default", "app.conf"]

/-- fix_app_conf body: no-op when default/app.conf is absent; read it with
configparser (a directory at that path is silently skipped by read, so the
document is empty and the subsequent open for writing raises; unparseable
text makes read raise), delete install_source_checksum when present,
unconditionally write the document back and chmod the file to 644.  The
error component models the exception the except block catches. -/
def fix_app_conf (fs : FS) : FS × Option Unit :=
  if pexists fs appConfP then
    if isDirAt fs appConfP then (fs, some ())
    else
      match contentAt fs appConfP with
      | some (Content.ini d) =>
        (chmodAt (writeFileAt fs appConfP (Content.ini (removeChecksum d)))
          appConfP filePerms, none)
      | _ => (fs, some ())
  else (fs, none)

def localMetaP : List String := ["metadata", "local.meta"]
def metadataP : List String := ["metadata"]
def defaultMetaP : List String := ["metadata", "default.meta"]

/-- The canonical content fix_meta_files writes to metadata/default.meta. -/
def defaultMetaContent : String :=
  "[]\naccess = read : [ * ], write : [ admin ]\nexport = system\n"

/-- First action of fix_meta_files: if metadata/local.meta exists, unlink
it (raising when a directory is at that path). -/
def metaStep1 (fs : FS) : FS × Option Unit :=
  if pexists fs localMetaP then
    if isDirAt fs localMetaP then (fs, some ())
    else (unlink fs localMetaP, none)
  else (fs, none)

/-- Second action: Path.mkdir(parents=True, exist_ok=True) on metadata:
ensure the root, then the metadata directory itself. -/
def metaStep2 (fs : FS) : FS × Option Unit :=
  match ensureDirAt fs [] with
  | (fs2, some e) => (fs2, some e)
  | (fs2, none) => ensureDirAt fs2 metadataP

/-- Third action: write the canonical default.meta (open for writing
raises when a directory is at that path) and chmod it to 644. -/
def metaStep3 (fs : FS) : FS × Option Unit :=
  if isDirAt fs defaultMetaP then (fs, some ())
  else
    (chmodAt (writeFileAt fs defaultMetaP (Content.text defaultMetaContent))
      defaultMetaP filePerms, none)

/-- fix_meta_files body: the three actions in order; an exception in one
aborts the following ones but keeps the partial effects, and is caught by
the except block of the step. -/
def fix_meta_files (fs : FS) : FS × Option Unit :=
  match metaStep1 fs with
  | (fs1, some e) => (fs1, some e)
  | (fs1, none) =>
    match metaStep2 fs1 with
    | (fs2, some e) => (fs2, some e)
    | (fs2, none) => metaStep3 fs2

/-- The mode set_permissions assigns to an entry it walks over:
directories get dir_perms, files with suffix in exec_files get exec_perms,
other files get file_perms. -/
def policyMode (e : Entry) : Nat :=
  if e.isDir then dirPerms
  else if pySuffix (entryName e) ∈ execFiles then execPerms
  else filePerms

/-- set_permissions body: chmod the root to dir_perms (raising when the
root does not exist), then os.walk the tree setting every directory to
dir_perms and every file to exec_perms or file_perms by suffix.  A
non-directory root is chmodded but walked over vacuously. -/
def set_permissions (fs : FS) : FS × Option Unit :=
  if isDirAt fs [] then
    (fs.map (fun e => { e with mode := policyMode e }), none)
  else if pexists fs [] then (chmodAt fs [] dirPerms, none)
  else (fs, some ())

/-- verify_structure: warn about each missing required entry; mutate
nothing, block nothing. -/
def verify_structure (fs : FS) : List String :=
  (if pexists fs appConfP then []
   else ["Missing required file: default/app.conf"]) ++
  (if pexists fs ["bin"] then []
   else ["Missing required directory: bin"]) ++
  (if pexists fs ["default"] then []
   else ["Missing required directory: default"])

/-- The entries of the tar archive tar.add(app_name) produces after
chdir to the parent: every entry of the tree, its stored path prefixed
with the application directory name. -/
def archiveOf (name : String) (fs : FS) : List Entry :=
  fs.map (fun e => { e with path := name :: e.path })

/-- Process-level state around the tree: the absolute path of the parent
directory of the application root, the name of the root directory, the
tree itself, the current working directory of the process, and the
content of the sibling name.tar.gz when it has been created. -/
structure World where
  parentDir : List String
  name : String
  tree : FS
  cwd : List String
  tarball : Option (List Entry)
deriving DecidableEq

/-- create_package: open parent/name.tar.gz for writing (creating the
file), chdir to the parent, tar.add the application directory.  When the
root is missing, add raises after the empty archive file was already
created; the chdir is never undone. -/
def create_package (w : World) : World × Option Unit :=
  if pexists w.tree [] then
    ({ w with cwd := w.parentDir,
              tarball := some (archiveOf w.name w.tree) }, none)
  else
    ({ w with cwd := w.parentDir, tarball := some [] }, some ())

/-- The tree after the four mutating tree-level steps in pipeline order,
each keeping its partial effects when its body raises (the except blocks
drop the errors). -/
def treePipe (t : FS) : FS :=
  (set_permissions
    (fix_meta_files (fix_app_conf (clean_app t).fs).1).1).1

/-- prepare_app: run all six steps in order; every step catches its own
exceptions, so each one runs regardless of earlier failures. -/
def prepare_app (w : World) : World :=
  let _warnings := verify_structure w.tree
  (create_package { w with tree := treePipe w.tree }).1

/-- main: run the pipeline; the process falls off the end of main, so the
exit code is 0 whatever the steps logged. -/
def main_run (w : World) : World × Nat :=
  (prepare_app w, 0)

/-- The permission mapping as the specification states it: directories
rwxr-xr-x, files with suffix .py or .sh rwxr-xr-x, all other files
rw-r--r--. -/
def claimMode (e : Entry) : Nat :=
  if e.isDir then 0o755
  else if pySuffix (entryName e) = ".py" ∨ pySuffix (entryName e) = ".sh"
  then 0o755
  else 0o644

/-- The distinct top-level names extraction of an archive would create. -/
def topNames (a : List Entry) : List String :=
  (a.filterMap (fun e => e.path.head?)).dedup

/-! Basic lemmas about the filesystem lookups and mutators. -/

/-- All entries at a path satisfy a property. -/
def AllAt (fs : FS) (p : List String) (φ : Entry → Prop) : Prop :=
  ∀ e ∈ fs, e.path = p → φ e

theorem startsWithPath_refl (p : List String) : startsWithPath p p = true := by
  induction p with
  | nil => rfl
  | cons a as ih => simp [startsWithPath, ih]

theorem startsWithPath_nil_right (a : String) (as : List String) :
    startsWithPath (a :: as) [] = false := rfl

theorem list_map_self {α : Type} {l : List α} {f : α → α}
    (h : ∀ a ∈ l, f a = a) : l.map f = l := by
  induction l with
  | nil => rfl
  | cons a as ih =>
    simp only [List.map_cons, h a (List.mem_cons_self a as)]
    rw [ih (fun b hb => h b (List.mem_cons_of_mem a hb))]

theorem mem_unlink {fs : FS} {p : List String} {e : Entry} :
    e ∈ unlink fs p ↔ e ∈ fs ∧ e.path ≠ p := by
  simp [unlink, List.mem_filter]

theorem mem_rmtree {fs : FS} {p : List String} {e : Entry} :
    e ∈ rmtree fs p ↔ e ∈ fs ∧ startsWithPath p e.path = false := by
  simp [rmtree, List.mem_filter]

theorem pexists_iff {fs : FS} {p : List String} :
    pexists fs p = true ↔ ∃ e ∈ fs, e.path = p := by
  induction fs with
  | nil => simp [pexists]
  | cons e es ih => simp [pexists, ih]

theorem isDirAt_iff {fs : FS} {p : List String} :
    isDirAt fs p = true ↔ ∃ e ∈ fs, e.path = p ∧ e.isDir = true := by
  induction fs with
  | nil => simp [isDirAt]
  | cons e es ih => simp [isDirAt, ih]

theorem isFileAt_iff {fs : FS} {p : List String} :
    isFileAt fs p = true ↔ ∃ e ∈ fs, e.path = p ∧ e.isDir = false := by
  induction fs with
  | nil => simp [isFileAt]
  | cons e es ih => simp [isFileAt, ih]

theorem pexists_eq_file_or_dir (fs : FS) (p : List String) :
    pexists fs p = (isFileAt fs p || isDirAt fs p) := by
  induction fs with
  | nil => rfl
  | cons e es ih =>
    simp only [pexists, isFileAt, isDirAt, ih]
    cases h : e.path == p <;> cases hd : e.isDir <;>
      simp [Bool.or_assoc, Bool.or_comm, Bool.or_left_comm]

theorem contentAt_isSome {fs : FS} {p : List String}
    (h : pexists fs p = true) : ∃ c, contentAt fs p = some c := by
  induction fs with
  | nil => simp [pexists] at h
  | cons e es ih =>
    simp only [pexists, Bool.or_eq_true] at h
    by_cases hp : e.path = p
    · exact ⟨e.content, by simp [contentAt, hp]⟩
    · have : pexists es p = true := by
        rcases h with h | h
        · exact absurd (by simpa using h) hp
        · exact h
      rcases ih this with ⟨c, hc⟩
      exact ⟨c, by simp [contentAt, hp, hc]⟩

theorem contentAt_of_allAt {fs : FS} {p : List String} {c : Content}
    (hex : pexists fs p = true)
    (hall : AllAt fs p (fun e => e.content = c)) :
    contentAt fs p = some c := by
  induction fs with
  | nil => simp [pexists] at hex
  | cons e es ih =>
    by_cases hp : e.path = p
    · simp only [contentAt, hp]
      simp [hall e (List.mem_cons_self e es) hp]
    · have hex' : pexists es p = true := by
        simp only [pexists, Bool.or_eq_true] at hex
        rcases hex with h | h
        · exact absurd (by simpa using h) hp
        · exact h
      have hall' : AllAt es p (fun e => e.content = c) :=
        fun x hx hxp => hall x (List.mem_cons_of_mem e hx) hxp
      simp [contentAt, hp, ih hex' hall']

theorem isDirAt_false_allAt {fs : FS} {p : List String}
    (h : isDirAt fs p = false) : AllAt fs p (fun e => e.isDir = false) := by
  intro e he hp
  cases hd : e.isDir
  · rfl
  · exact absurd (isDirAt_iff.mpr ⟨e, he, hp, hd⟩) (by simp [h])

theorem allAt_isDirAt_false {fs : FS} {p : List String}
    (h : AllAt fs p (fun e => e.isDir = false)) : isDirAt fs p = false := by
  cases hd : isDirAt fs p
  · rfl
  · rcases isDirAt_iff.mp hd with ⟨e, he, hp, hdir⟩
    exact absurd hdir (by simp [h e he hp])

/-! Lookup transport along path-preserving maps and appends. -/

theorem pexists_map {fs : FS} {q : List String} {f : Entry → Entry}
    (hf : ∀ e, (f e).path = e.path) :
    pexists (fs.map f) q = pexists fs q := by
  induction fs with
  | nil => rfl
  | cons e es ih => simp [pexists, hf, ih]

theorem isDirAt_map {fs : FS} {q : List String} {f : Entry → Entry}
    (hf : ∀ e, (f e).path = e.path) (hd : ∀ e, (f e).isDir = e.isDir) :
    isDirAt (fs.map f) q = isDirAt fs q := by
  induction fs with
  | nil => rfl
  | cons e es ih => simp [isDirAt, hf, hd, ih]

theorem isFileAt_map {fs : FS} {q : List String} {f : Entry → Entry}
    (hf : ∀ e, (f e).path = e.path) (hd : ∀ e, (f e).isDir = e.isDir) :
    isFileAt (fs.map f) q = isFileAt fs q := by
  induction fs with
  | nil => rfl
  | cons e es ih => simp [isFileAt, hf, hd, ih]

theorem contentAt_map {fs : FS} {q : List String} {f : Entry → Entry}
    (hf : ∀ e, (f e).path = e.path) (hc : ∀ e, (f e).content = e.content) :
    contentAt (fs.map f) q = contentAt fs q := by
  induction fs with
  | nil => rfl
  | cons e es ih =>
    simp only [List.map_cons, contentAt, hf, hc, ih]

theorem allAt_map {fs : FS} {q : List String} {f : Entry → Entry}
    {φ : Entry → Prop} (hf : ∀ e, (f e).path = e.path)
    (hφ : ∀ e, e.path = q → φ e → φ (f e)) (h : AllAt fs q φ) :
    AllAt (fs.map f) q φ := by
  intro x hx hxq
  rcases List.mem_map.mp hx with ⟨e, he, rfl⟩
  have hp : e.path = q := by rw [← hf e]; exact hxq
  exact hφ e hp (h e he hp)

theorem allAt_map_mk {fs : FS} {q : List String} {f : Entry → Entry}
    {φ : Entry → Prop} (hf : ∀ e, (f e).path = e.path)
    (hφ : ∀ e, e.path = q → φ (f e)) :
    AllAt (fs.map f) q φ := by
  intro x hx hxq
  rcases List.mem_map.mp hx with ⟨e, he, rfl⟩
  exact hφ e (by rw [← hf e]; exact hxq)

theorem pexists_append {u v : FS} {q : List String} :
    pexists (u ++ v) q = (pexists u q || pexists v q) := by
  induction u with
  | nil => simp [pexists]
  | cons e es ih => simp [pexists, ih, Bool.or_assoc]

theorem isDirAt_append {u v : FS} {q : List String} :
    isDirAt (u ++ v) q = (isDirAt u q || isDirAt v q) := by
  induction u with
  | nil => simp [isDirAt]
  | cons e es ih => simp [isDirAt, ih, Bool.or_assoc]

theorem isFileAt_append {u v : FS} {q : List String} :
    isFileAt (u ++ v) q = (isFileAt u q || isFileAt v q) := by
  induction u with
  | nil => simp [isFileAt]
  | cons e es ih => simp [isFileAt, ih, Bool.or_assoc]

theorem contentAt_append_of_absent {u v : FS} {q : List String}
    (h : pexists u q = false) : contentAt (u ++ v) q = contentAt v q := by
  induction u with
  | nil => rfl
  | cons e es ih =>
    simp only [pexists, Bool.or_eq_false_iff] at h
    simp [contentAt, h.1, ih h.2, show e.path ≠ q by simpa using h.1]

theorem contentAt_append_of_present {u v : FS} {q : List String}
    (h : pexists u q = true) : contentAt (u ++ v) q = contentAt u q := by
  induction u with
  | nil => simp [pexists] at h
  | cons e es ih =>
    by_cases hp : e.path = q
    · simp [contentAt, hp]
    · have : pexists es q = true := by
        simp only [pexists, Bool.or_eq_true] at h
        rcases h with h | h
        · exact absurd (by simpa using h) hp
        · exact h
      simp [contentAt, hp, ih this]

theorem allAt_append {u v : FS} {q : List String} {φ : Entry → Prop}
    (hu : AllAt u q φ) (hv : AllAt v q φ) : AllAt (u ++ v) q φ := by
  intro e he hq
  rcases List.mem_append.mp he with h | h
  · exact hu e h hq
  · exact hv e h hq

theorem allAt_filter {fs : FS} {q : List String} {φ : Entry → Prop}
    {b : Entry → Bool} (h : AllAt fs q φ) : AllAt (fs.filter b) q φ :=
  fun e he hq => h e (List.mem_of_mem_filter he) hq

theorem pexists_filter_false {fs : FS} {q : List String} {b : Entry → Bool}
    (h : pexists fs q = false) : pexists (fs.filter b) q = false := by
  cases hx : pexists (fs.filter b) q
  · rfl
  · rcases pexists_iff.mp hx with ⟨e, he, hp⟩
    exact absurd (pexists_iff.mpr ⟨e, List.mem_of_mem_filter he, hp⟩)
      (by simp [h])

theorem isDirAt_filter_false {fs : FS} {q : List String} {b : Entry → Bool}
    (h : isDirAt fs q = false) : isDirAt (fs.filter b) q = false := by
  cases hx : isDirAt (fs.filter b) q
  · rfl
  · rcases isDirAt_iff.mp hx with ⟨e, he, hp, hd⟩
    exact absurd (isDirAt_iff.mpr ⟨e, List.mem_of_mem_filter he, hp, hd⟩)
      (by simp [h])

/-! Lemmas about chmodAt, writeFileAt and ensureDirAt. -/

theorem chmod_path (p : List String) (m : Nat) (e : Entry) :
    ((if e.path == p then { e with mode := m } else e) : Entry).path
      = e.path := by
  split <;> rfl

theorem chmod_isDir (p : List String) (m : Nat) (e : Entry) :
    ((if e.path == p then { e with mode := m } else e) : Entry).isDir
      = e.isDir := by
  split <;> rfl

theorem chmod_content (p : List String) (m : Nat) (e : Entry) :
    ((if e.path == p then { e with mode := m } else e) : Entry).content
      = e.content := by
  split <;> rfl

theorem pexists_chmod {fs : FS} {p q : List String} {m : Nat} :
    pexists (chmodAt fs p m) q = pexists fs q :=
  pexists_map (chmod_path p m)

theorem isDirAt_chmod {fs : FS} {p q : List String} {m : Nat} :
    isDirAt (chmodAt fs p m) q = isDirAt fs q :=
  isDirAt_map (chmod_path p m) (chmod_isDir p m)

theorem isFileAt_chmod {fs : FS} {p q : List String} {m : Nat} :
    isFileAt (chmodAt fs p m) q = isFileAt fs q :=
  isFileAt_map (chmod_path p m) (chmod_isDir p m)

theorem contentAt_chmod {fs : FS} {p q : List String} {m : Nat} :
    contentAt (chmodAt fs p m) q = contentAt fs q :=
  contentAt_map (chmod_path p m) (chmod_content p m)

theorem allAt_chmod_self {fs : FS} {p : List String} {m : Nat} :
    AllAt (chmodAt fs p m) p (fun e => e.mode = m) :=
  allAt_map_mk (chmod_path p m) (fun e hp => by simp [hp])

theorem allAt_chmod {fs : FS} {p q : List String} {m : Nat}
    {φ : Entry → Prop}
    (hφ : ∀ e, e.path = q → φ e → φ { e with mode := m })
    (h : AllAt fs q φ) : AllAt (chmodAt fs p m) q φ :=
  allAt_map (chmod_path p m)
    (fun e hp he => by
      by_cases hpq : e.path = p
      · simpa [hpq] using hφ e hp he
      · simpa [hpq] using he) h

theorem chmod_self {fs : FS} {p : List String} {m : Nat}
    (h : AllAt fs p (fun e => e.mode = m)) : chmodAt fs p m = fs :=
  list_map_self (fun e he => by
    obtain ⟨ep, ed, ec, em⟩ := e
    by_cases hp : ep = p
    · have hm : em = m := h ⟨ep, ed, ec, em⟩ he hp
      simp [hp, hm]
    · simp [hp])

theorem contentAt_none_of_absent {fs : FS} {q : List String}
    (h : pexists fs q = false) : contentAt fs q = none := by
  induction fs with
  | nil => rfl
  | cons e es ih =>
    simp only [pexists, Bool.or_eq_false_iff] at h
    simp [contentAt, show e.path ≠ q by simpa using h.1, ih h.2]

theorem contentAt_map_set {fs : FS} {p : List String} {c : Content}
    {f : Entry → Entry} (hf : ∀ e, (f e).path = e.path)
    (hset : ∀ e, e.path = p → (f e).content = c)
    (h : pexists fs p = true) : contentAt (fs.map f) p = some c := by
  induction fs with
  | nil => simp [pexists] at h
  | cons e es ih =>
    by_cases hp : e.path = p
    · simp [contentAt, hf, hp, hset e hp]
    · have : pexists es p = true := by
        simp only [pexists, Bool.or_eq_true] at h
        rcases h with h | h
        · exact absurd (by simpa using h) hp
        · exact h
      simp [contentAt, hf, hp, ih this]

theorem contentAt_map_keep {fs : FS} {q : List String}
    {f : Entry → Entry} (hf : ∀ e, (f e).path = e.path)
    (hkeep : ∀ e, e.path = q → (f e).content = e.content) :
    contentAt (fs.map f) q = contentAt fs q := by
  induction fs with
  | nil => rfl
  | cons e es ih =>
    by_cases hq2 : e.path = q
    · simp [contentAt, hf, hq2, hkeep e hq2]
    · simp [contentAt, hf, hq2, ih]

theorem writeF_path (p : List String) (c : Content) (e : Entry) :
    ((if e.path == p then { e with content := c } else e) : Entry).path
      = e.path := by
  split <;> rfl

theorem writeF_isDir (p : List String) (c : Content) (e : Entry) :
    ((if e.path == p then { e with content := c } else e) : Entry).isDir
      = e.isDir := by
  split <;> rfl

theorem pexists_write_self {fs : FS} {p : List String} {c : Content} :
    pexists (writeFileAt fs p c) p = true := by
  unfold writeFileAt
  by_cases hex : pexists fs p = true
  · rw [if_pos hex, pexists_map (writeF_path p c)]; exact hex
  · rw [if_neg hex]; simp [pexists_append, pexists]

theorem pexists_write {fs : FS} {p q : List String} {c : Content}
    (h : pexists fs q = true) : pexists (writeFileAt fs p c) q = true := by
  unfold writeFileAt
  by_cases hex : pexists fs p = true
  · rw [if_pos hex, pexists_map (writeF_path p c)]; exact h
  · rw [if_neg hex]; simp [pexists_append, h]

theorem pexists_write_other {fs : FS} {p q : List String} {c : Content}
    (hq : q ≠ p) : pexists (writeFileAt fs p c) q = pexists fs q := by
  unfold writeFileAt
  by_cases hex : pexists fs p = true
  · rw [if_pos hex]; exact pexists_map (writeF_path p c)
  · rw [if_neg hex]; simp [pexists_append, pexists, hq.symm]

theorem isDirAt_write {fs : FS} {p q : List String} {c : Content} :
    isDirAt (writeFileAt fs p c) q = isDirAt fs q := by
  unfold writeFileAt
  by_cases hex : pexists fs p = true
  · rw [if_pos hex]
    exact isDirAt_map (writeF_path p c) (writeF_isDir p c)
  · rw [if_neg hex]; simp [isDirAt_append, isDirAt]

theorem isFileAt_write_other {fs : FS} {p q : List String} {c : Content}
    (hq : q ≠ p) : isFileAt (writeFileAt fs p c) q = isFileAt fs q := by
  unfold writeFileAt
  by_cases hex : pexists fs p = true
  · rw [if_pos hex]
    exact isFileAt_map (writeF_path p c) (writeF_isDir p c)
  · rw [if_neg hex]; simp [isFileAt_append, isFileAt, hq.symm]

theorem contentAt_write_self {fs : FS} {p : List String} {c : Content} :
    contentAt (writeFileAt fs p c) p = some c := by
  unfold writeFileAt
  by_cases hex : pexists fs p = true
  · rw [if_pos hex]
    exact contentAt_map_set (writeF_path p c)
      (fun e hp => by simp [hp]) hex
  · rw [if_neg hex]
    have hx : pexists fs p = false := by simpa using hex
    rw [contentAt_append_of_absent hx]
    simp [contentAt]

theorem contentAt_write_other {fs : FS} {p q : List String} {c : Content}
    (hq : q ≠ p) : contentAt (writeFileAt fs p c) q = contentAt fs q := by
  unfold writeFileAt
  by_cases hex : pexists fs p = true
  · rw [if_pos hex]
    refine contentAt_map_keep (writeF_path p c) (fun e hp => ?_)
    have : e.path ≠ p := by rw [hp]; exact hq
    simp [this]
  · rw [if_neg hex]
    cases hx : pexists fs q
    · rw [contentAt_append_of_absent hx, contentAt_none_of_absent hx]
      simp [contentAt, hq.symm]
    · exact contentAt_append_of_present hx

theorem allAt_write_self {fs : FS} {p : List String} {c : Content} :
    AllAt (writeFileAt fs p c) p (fun e => e.content = c) := by
  unfold writeFileAt
  by_cases hex : pexists fs p = true
  · rw [if_pos hex]
    exact allAt_map_mk (writeF_path p c) (fun e hp => by simp [hp])
  · rw [if_neg hex]
    refine allAt_append (fun e he hp => ?_) (fun e he hp => ?_)
    · exact absurd (pexists_iff.mpr ⟨e, he, hp⟩) (by simp [hex])
    · rcases List.mem_singleton.mp he with rfl; rfl

theorem allAt_write_self_file {fs : FS} {p : List String} {c : Content}
    (hd : isDirAt fs p = false) :
    AllAt (writeFileAt fs p c) p (fun e => e.isDir = false) := by
  unfold writeFileAt
  by_cases hex : pexists fs p = true
  · rw [if_pos hex]
    exact allAt_map (writeF_path p c)
      (fun e hp he => by
        by_cases hpp : e.path = p
        · simpa [hpp] using he
        · simpa [hpp] using he)
      (isDirAt_false_allAt hd)
  · rw [if_neg hex]
    refine allAt_append (isDirAt_false_allAt hd) (fun e he hp => ?_)
    rcases List.mem_singleton.mp he with rfl; rfl

theorem allAt_write_other {fs : FS} {p q : List String} {c : Content}
    {φ : Entry → Prop} (hq : q ≠ p) (h : AllAt fs q φ) :
    AllAt (writeFileAt fs p c) q φ := by
  unfold writeFileAt
  by_cases hex : pexists fs p = true
  · rw [if_pos hex]
    refine allAt_map (writeF_path p c) (fun e hp he => ?_) h
    have : e.path ≠ p := by rw [hp]; exact hq
    simp [this, he]
  · rw [if_neg hex]
    refine allAt_append h (fun e he hp => ?_)
    rcases List.mem_singleton.mp he with rfl
    exact absurd hp hq.symm

theorem write_self {fs : FS} {p : List String} {c : Content}
    (hex : pexists fs p = true)
    (h : AllAt fs p (fun e => e.content = c)) : writeFileAt fs p c = fs := by
  unfold writeFileAt
  rw [if_pos hex]
  exact list_map_self (fun e he => by
    obtain ⟨ep, ed, ec, em⟩ := e
    by_cases hp : ep = p
    · have hc : ec = c := h ⟨ep, ed, ec, em⟩ he hp
      simp [hp, hc]
    · simp [hp])

theorem ensure_of_isDir {fs : FS} {p : List String}
    (h : isDirAt fs p = true) : ensureDirAt fs p = (fs, none) := by
  simp [ensureDirAt, h]

theorem ensure_of_file {fs : FS} {p : List String}
    (hd : isDirAt fs p = false) (hx : pexists fs p = true) :
    ensureDirAt fs p = (fs, some ()) := by
  simp [ensureDirAt, hd, hx]

theorem ensure_of_absent {fs : FS} {p : List String}
    (hx : pexists fs p = false) :
    ensureDirAt fs p
      = (fs ++ [⟨p, true, Content.text "", 0o777⟩], none) := by
  have hd : isDirAt fs p = false := by
    cases h : isDirAt fs p
    · rfl
    · rcases isDirAt_iff.mp h with ⟨e, he, hp, _⟩
      exact absurd (pexists_iff.mpr ⟨e, he, hp⟩) (by simp [hx])
  simp [ensureDirAt, hd, hx]

/-! Lemmas about clean_app. -/

/-- No entry of the tree matches the pattern. -/
def NoMatch (t : FS) (pat : String) : Prop :=
  ∀ e ∈ t, entryMatches pat e = false

theorem visitC_of_err (f : List String → Bool) (s : CleanState)
    (p : List String) (h : s.err = some ()) : visitC f s p = s := by
  unfold visitC; rw [h]

theorem visitC_of_none (f : List String → Bool) (s : CleanState)
    (p : List String) (h : s.err = none) :
    visitC f s p =
      if isFileAt s.fs p then
        if f p then { s with err := some () }
        else { s with fs := unlink s.fs p, removed := s.removed + 1,
                      logs := s.logs + 1 }
      else if isDirAt s.fs p then
        if f p then { s with err := some () }
        else { s with fs := rmtree s.fs p, removed := s.removed + 1,
                      logs := s.logs + 1 }
      else { s with logs := s.logs + 1 } := by
  unfold visitC; rw [h]

theorem visitC_subset {f : List String → Bool} {s : CleanState}
    {p : List String} {e : Entry} (h : e ∈ (visitC f s p).fs) : e ∈ s.fs := by
  cases hv : s.err with
  | some u =>
    cases u; rw [visitC_of_err f s p hv] at h; exact h
  | none =>
    rw [visitC_of_none f s p hv] at h
    by_cases hf : isFileAt s.fs p = true
    · rw [if_pos hf] at h
      by_cases hl : f p = true
      · rw [if_pos hl] at h; exact h
      · rw [if_neg hl] at h; exact (mem_unlink.mp h).1
    · rw [if_neg hf] at h
      by_cases hd : isDirAt s.fs p = true
      · rw [if_pos hd] at h
        by_cases hl : f p = true
        · rw [if_pos hl] at h; exact h
        · rw [if_neg hl] at h; exact (mem_rmtree.mp h).1
      · rw [if_neg hd] at h; exact h

theorem visitC_nf_of_none (s : CleanState) (p : List String)
    (h : s.err = none) :
    visitC noFail s p =
      if isFileAt s.fs p then
        { s with fs := unlink s.fs p, removed := s.removed + 1,
                 logs := s.logs + 1 }
      else if isDirAt s.fs p then
        { s with fs := rmtree s.fs p, removed := s.removed + 1,
                 logs := s.logs + 1 }
      else { s with logs := s.logs + 1 } := by
  have hnf : ¬ (noFail p = true) := by simp [noFail]
  rw [visitC_of_none noFail s p h]
  by_cases hf : isFileAt s.fs p = true
  · rw [if_pos hf, if_pos hf, if_neg hnf]
  · rw [if_neg hf, if_neg hf]
    by_cases hd : isDirAt s.fs p = true
    · rw [if_pos hd, if_pos hd, if_neg hnf]
    · rw [if_neg hd, if_neg hd]

theorem visitC_err_nf {s : CleanState} {p : List String} :
    (visitC noFail s p).err = s.err := by
  cases hv : s.err with
  | some u => cases u; rw [visitC_of_err noFail s p hv]; exact hv
  | none =>
    rw [visitC_nf_of_none s p hv]
    by_cases hf : isFileAt s.fs p = true
    · rw [if_pos hf]; exact hv
    · rw [if_neg hf]
      by_cases hd : isDirAt s.fs p = true
      · rw [if_pos hd]; exact hv
      · rw [if_neg hd]; exact hv

theorem visitC_kills {s : CleanState} {p : List String} (h : s.err = none) :
    ∀ x ∈ (visitC noFail s p).fs, x.path ≠ p := by
  rw [visitC_nf_of_none s p h]
  by_cases hf : isFileAt s.fs p = true
  · rw [if_pos hf]
    exact fun x hx => (mem_unlink.mp hx).2
  · rw [if_neg hf]
    by_cases hd : isDirAt s.fs p = true
    · rw [if_pos hd]
      intro x hx heq
      have hs := (mem_rmtree.mp hx).2
      rw [heq] at hs
      exact absurd (startsWithPath_refl p) (by simp [hs])
    · rw [if_neg hd]
      intro x hx heq
      have hpe : pexists s.fs p = true := pexists_iff.mpr ⟨x, hx, heq⟩
      rw [pexists_eq_file_or_dir] at hpe
      simp [show isFileAt s.fs p = false by simpa using hf,
            show isDirAt s.fs p = false by simpa using hd] at hpe

theorem visitC_keeps_root {f : List String → Bool} {s : CleanState}
    {p : List String} (hp : p ≠ []) {e : Entry} (he : e ∈ s.fs)
    (hroot : e.path = []) : e ∈ (visitC f s p).fs := by
  cases hv : s.err with
  | some u => cases u; rw [visitC_of_err f s p hv]; exact he
  | none =>
    rw [visitC_of_none f s p hv]
    by_cases hf : isFileAt s.fs p = true
    · rw [if_pos hf]
      by_cases hl : f p = true
      · rw [if_pos hl]; exact he
      · rw [if_neg hl]
        exact mem_unlink.mpr ⟨he, by rw [hroot]; exact fun h => hp h.symm⟩
    · rw [if_neg hf]
      by_cases hd : isDirAt s.fs p = true
      · rw [if_pos hd]
        by_cases hl : f p = true
        · rw [if_pos hl]; exact he
        · rw [if_neg hl]
          refine mem_rmtree.mpr ⟨he, ?_⟩
          rw [hroot]
          cases p with
          | nil => exact absurd rfl hp
          | cons a as => exact startsWithPath_nil_right a as
      · rw [if_neg hd]; exact he

theorem visitC_counts {f : List String → Bool} {s : CleanState}
    {p : List String} (h : s.removed ≤ s.logs) :
    (visitC f s p).removed ≤ (visitC f s p).logs := by
  cases hv : s.err with
  | some u => cases u; rw [visitC_of_err f s p hv]; exact h
  | none =>
    rw [visitC_of_none f s p hv]
    by_cases hf : isFileAt s.fs p = true
    · rw [if_pos hf]
      by_cases hl : f p = true
      · rw [if_pos hl]; exact h
      · rw [if_neg hl]; exact Nat.succ_le_succ h
    · rw [if_neg hf]
      by_cases hd : isDirAt s.fs p = true
      · rw [if_pos hd]
        by_cases hl : f p = true
        · rw [if_pos hl]; exact h
        · rw [if_neg hl]; exact Nat.succ_le_succ h
      · rw [if_neg hd]; exact Nat.le_succ_of_le h

theorem foldl_visit_subset (f : List String → Bool)
    (ps : List (List String)) :
    ∀ s : CleanState, ∀ e ∈ (ps.foldl (visitC f) s).fs, e ∈ s.fs := by
  induction ps with
  | nil => exact fun s e he => he
  | cons p ps ih =>
    exact fun s e he => visitC_subset (ih (visitC f s p) e he)

theorem foldl_visit_err_nf (ps : List (List String)) :
    ∀ s : CleanState, (ps.foldl (visitC noFail) s).err = s.err := by
  induction ps with
  | nil => exact fun s => rfl
  | cons p ps ih =>
    intro s
    rw [List.foldl_cons, ih (visitC noFail s p), visitC_err_nf]

theorem foldl_visit_counts (f : List String → Bool)
    (ps : List (List String)) :
    ∀ s : CleanState, s.removed ≤ s.logs →
      (ps.foldl (visitC f) s).removed ≤ (ps.foldl (visitC f) s).logs := by
  induction ps with
  | nil => exact fun s h => h
  | cons p ps ih =>
    exact fun s h => ih (visitC f s p) (visitC_counts h)

theorem foldl_visit_keeps_root {f : List String → Bool}
    (ps : List (List String)) (hps : ∀ p ∈ ps, p ≠ []) :
    ∀ s : CleanState, ∀ e ∈ s.fs, e.path = [] →
      e ∈ (ps.foldl (visitC f) s).fs := by
  induction ps with
  | nil => exact fun s e he _ => he
  | cons p ps ih =>
    intro s e he hroot
    exact ih (fun q hq => hps q (List.mem_cons_of_mem p hq))
      (visitC f s p) e
      (visitC_keeps_root (hps p (List.mem_cons_self p ps)) he hroot) hroot

theorem foldl_visit_kills (ps : List (List String)) {p : List String}
    (hp : p ∈ ps) :
    ∀ s : CleanState, s.err = none →
      ∀ x ∈ (ps.foldl (visitC noFail) s).fs, x.path ≠ p := by
  induction ps with
  | nil => cases hp
  | cons q qs ih =>
    intro s herr x hx
    rcases List.mem_cons.mp hp with rfl | hmem
    · exact fun heq =>
        visitC_kills herr x
          (foldl_visit_subset noFail qs (visitC noFail s p) x hx) heq
    · exact ih hmem (visitC noFail s q)
        (by rw [visitC_err_nf]; exact herr) x hx

theorem cleanPatternC_of_err (f : List String → Bool) (pat : String)
    (s : CleanState) (h : s.err = some ()) : cleanPatternC f pat s = s := by
  unfold cleanPatternC; rw [h]

theorem cleanPatternC_of_none (f : List String → Bool) (pat : String)
    (s : CleanState) (h : s.err = none) :
    cleanPatternC f pat s = (matchPaths s.fs pat).foldl (visitC f) s := by
  unfold cleanPatternC; rw [h]

theorem cleanPatternC_subset {f : List String → Bool} {pat : String}
    {s : CleanState} {e : Entry} (h : e ∈ (cleanPatternC f pat s).fs) :
    e ∈ s.fs := by
  cases hv : s.err with
  | some u => cases u; rw [cleanPatternC_of_err f pat s hv] at h; exact h
  | none =>
    rw [cleanPatternC_of_none f pat s hv] at h
    exact foldl_visit_subset f _ s e h

theorem cleanPatternC_err_nf {pat : String} {s : CleanState} :
    (cleanPatternC noFail pat s).err = s.err := by
  cases hv : s.err with
  | some u => cases u; rw [cleanPatternC_of_err noFail pat s hv]; exact hv
  | none =>
    rw [cleanPatternC_of_none noFail pat s hv, foldl_visit_err_nf]
    exact hv

theorem cleanPatternC_counts {f : List String → Bool} {pat : String}
    {s : CleanState} (h : s.removed ≤ s.logs) :
    (cleanPatternC f pat s).removed ≤ (cleanPatternC f pat s).logs := by
  cases hv : s.err with
  | some u => cases u; rw [cleanPatternC_of_err f pat s hv]; exact h
  | none =>
    rw [cleanPatternC_of_none f pat s hv]
    exact foldl_visit_counts f _ s h

theorem cleanPatternC_keeps_root {f : List String → Bool} {pat : String}
    {s : CleanState} {e : Entry} (he : e ∈ s.fs) (hroot : e.path = []) :
    e ∈ (cleanPatternC f pat s).fs := by
  cases hv : s.err with
  | some u => cases u; rw [cleanPatternC_of_err f pat s hv]; exact he
  | none =>
    rw [cleanPatternC_of_none f pat s hv]
    refine foldl_visit_keeps_root _ (fun p hp => ?_) s e he hroot
    rcases List.mem_map.mp hp with ⟨x, hxf, rfl⟩
    have hm := (List.mem_filter.mp hxf).2
    intro hnil
    simp [entryMatches, hnil] at hm

theorem cleanPatternC_clears {pat : String} {s : CleanState}
    (h : s.err = none) :
    ∀ e ∈ (cleanPatternC noFail pat s).fs, entryMatches pat e = false := by
  intro e he
  cases hm : entryMatches pat e
  · rfl
  · exfalso
    have hes : e ∈ s.fs := cleanPatternC_subset he
    have hmp : e.path ∈ matchPaths s.fs pat :=
      List.mem_map.mpr ⟨e, List.mem_filter.mpr ⟨hes, hm⟩, rfl⟩
    rw [cleanPatternC_of_none noFail pat s h] at he
    exact foldl_visit_kills _ hmp s h e he rfl

theorem outer_subset (pats : List String) :
    ∀ s : CleanState,
      ∀ e ∈ ((pats.foldl (fun s pat => cleanPatternC noFail pat s) s).fs),
        e ∈ s.fs := by
  induction pats with
  | nil => exact fun s e he => he
  | cons q qs ih =>
    exact fun s e he =>
      cleanPatternC_subset (ih (cleanPatternC noFail q s) e he)

theorem outer_err (pats : List String) :
    ∀ s : CleanState,
      (pats.foldl (fun s pat => cleanPatternC noFail pat s) s).err
        = s.err := by
  induction pats with
  | nil => exact fun s => rfl
  | cons q qs ih =>
    intro s
    rw [List.foldl_cons, ih (cleanPatternC noFail q s), cleanPatternC_err_nf]

theorem outer_counts (pats : List String) :
    ∀ s : CleanState, s.removed ≤ s.logs →
      (pats.foldl (fun s pat => cleanPatternC noFail pat s) s).removed
        ≤ (pats.foldl (fun s pat => cleanPatternC noFail pat s) s).logs := by
  induction pats with
  | nil => exact fun s h => h
  | cons q qs ih =>
    exact fun s h => ih (cleanPatternC noFail q s) (cleanPatternC_counts h)

theorem outer_keeps_root (pats : List String) :
    ∀ s : CleanState, ∀ e ∈ s.fs, e.path = [] →
      e ∈ (pats.foldl (fun s pat => cleanPatternC noFail pat s) s).fs := by
  induction pats with
  | nil => exact fun s e he _ => he
  | cons q qs ih =>
    intro s e he hroot
    exact ih (cleanPatternC noFail q s)
      e (cleanPatternC_keeps_root he hroot) hroot

theorem outer_clears (pats : List String) :
    ∀ s : CleanState, s.err = none →
      ∀ pat ∈ pats,
        ∀ e ∈ ((pats.foldl (fun s pat => cleanPatternC noFail pat s) s).fs),
          entryMatches pat e = false := by
  induction pats with
  | nil => intro s _ pat hpat; cases hpat
  | cons q qs ih =>
    intro s herr pat hpat e he
    rcases List.mem_cons.mp hpat with rfl | hmem
    · exact cleanPatternC_clears herr e
        (outer_subset qs (cleanPatternC noFail pat s) e he)
    · exact ih (cleanPatternC noFail q s)
        (by rw [cleanPatternC_err_nf]; exact herr) pat hmem e he

theorem clean_app_err (t : FS) : (clean_app t).err = none := by
  unfold clean_app clean_app_run
  rw [outer_err]

theorem clean_app_subset {t : FS} {e : Entry}
    (h : e ∈ (clean_app t).fs) : e ∈ t := by
  unfold clean_app clean_app_run at h
  exact outer_subset patternsToRemove _ e h

theorem clean_app_clears (t : FS) :
    ∀ pat ∈ patternsToRemove, NoMatch (clean_app t).fs pat := by
  intro pat hpat e he
  unfold clean_app clean_app_run at he
  exact outer_clears patternsToRemove ⟨t, 0, 0, none⟩ rfl pat hpat e he

theorem clean_app_counts (t : FS) :
    (clean_app t).removed ≤ (clean_app t).logs := by
  unfold clean_app clean_app_run
  exact outer_counts patternsToRemove ⟨t, 0, 0, none⟩ (Nat.le_refl 0)

theorem clean_app_keeps_root {t : FS} {e : Entry} (he : e ∈ t)
    (hroot : e.path = []) : e ∈ (clean_app t).fs := by
  unfold clean_app clean_app_run
  exact outer_keeps_root patternsToRemove ⟨t, 0, 0, none⟩ e he hroot

theorem foldl_pattern_of_nomatch (pats : List String) :
    ∀ s : CleanState, s.err = none → (∀ pat ∈ pats, NoMatch s.fs pat) →
      pats.foldl (fun s pat => cleanPatternC noFail pat s) s = s := by
  induction pats with
  | nil => exact fun s _ _ => rfl
  | cons q qs ih =>
    intro s herr hnm
    have hmp : matchPaths s.fs q = [] := by
      unfold matchPaths
      rw [List.filter_eq_nil_iff.mpr
        (fun e he => by simp [hnm q (List.mem_cons_self q qs) e he])]
      rfl
    have h1 : cleanPatternC noFail q s = s := by
      rw [cleanPatternC_of_none noFail q s herr, hmp]
      rfl
    rw [List.foldl_cons, h1]
    exact ih s herr (fun pat hpat => hnm pat (List.mem_cons_of_mem q hpat))

theorem clean_app_id {t : FS}
    (h : ∀ pat ∈ patternsToRemove, NoMatch t pat) :
    clean_app t = ⟨t, 0, 0, none⟩ := by
  unfold clean_app clean_app_run
  exact foldl_pattern_of_nomatch patternsToRemove ⟨t, 0, 0, none⟩ rfl h

/-! Lemmas about the configuration document manipulation. -/

theorem docHasKey_iff {d : ConfigDoc} {s k : String} :
    docHasKey d s k = true
      ↔ ∃ sec ∈ d, sec.1 = s ∧ ∃ kv ∈ sec.2, kv.1 = k := by
  simp [docHasKey, List.any_eq_true]

theorem mem_docPairs {d : ConfigDoc} {t : String × String × String} :
    t ∈ docPairs d
      ↔ ∃ sec ∈ d, ∃ kv ∈ sec.2, t = (sec.1, kv.1, kv.2) := by
  simp only [docPairs, List.mem_flatMap, List.mem_map]
  constructor
  · rintro ⟨sec, hsec, kv, hkv, rfl⟩
    exact ⟨sec, hsec, kv, hkv, rfl⟩
  · rintro ⟨sec, hsec, kv, hkv, rfl⟩
    exact ⟨sec, hsec, kv, hkv, rfl⟩

theorem removeChecksum_of_no_key {d : ConfigDoc}
    (h : docHasKey d "install" "install_source_checksum" = false) :
    removeChecksum d = d := by
  unfold removeChecksum
  rw [if_neg (by simp [h])]

theorem removeChecksum_hasKey (d : ConfigDoc) :
    docHasKey (removeChecksum d) "install" "install_source_checksum"
      = false := by
  unfold removeChecksum
  by_cases hg : docHasKey d "install" "install_source_checksum" = true
  · rw [if_pos hg]
    cases hk : docHasKey (d.map (fun sec =>
        if sec.1 == "install" then
          (sec.1, sec.2.filter
            (fun kv => !(kv.1 == "install_source_checksum")))
        else sec)) "install" "install_source_checksum"
    · rfl
    · exfalso
      rcases docHasKey_iff.mp hk with ⟨sec', hsec', hname, kv, hkv, hk1⟩
      rcases List.mem_map.mp hsec' with ⟨sec, hsec, rfl⟩
      by_cases hi : sec.1 = "install"
      · rw [if_pos (by simp [hi])] at hkv hname
        have := (List.mem_filter.mp hkv).2
        simp [hk1] at this
      · rw [if_neg (by simp [hi])] at hkv hname
        exact hi hname
  · rw [if_neg hg]
    simpa using hg

theorem removeChecksum_idem (d : ConfigDoc) :
    removeChecksum (removeChecksum d) = removeChecksum d :=
  removeChecksum_of_no_key (removeChecksum_hasKey d)

theorem map_fst_of_keep {l : ConfigDoc}
    {f : String × List (String × String) → String × List (String × String)}
    (hf : ∀ x, (f x).1 = x.1) :
    (l.map f).map Prod.fst = l.map Prod.fst := by
  induction l with
  | nil => rfl
  | cons x xs ih => simp only [List.map_cons, hf, ih]

theorem removeChecksum_sections (d : ConfigDoc) :
    (removeChecksum d).map Prod.fst = d.map Prod.fst := by
  unfold removeChecksum
  split
  · exact map_fst_of_keep (fun sec => by split <;> rfl)
  · rfl

theorem pairs_sec_install (s1 : String) (es : List (String × String))
    (hi : s1 = "install") :
    (es.filter (fun kv => !(kv.1 == "install_source_checksum"))).map
        (fun kv => (s1, kv.1, kv.2))
      = (es.map (fun kv => (s1, kv.1, kv.2))).filter
          (fun t => !(t.1 == "install" && t.2.1 == "install_source_checksum"))
      := by
  subst hi
  induction es with
  | nil => rfl
  | cons kv kvs ih =>
    by_cases hc : kv.1 = "install_source_checksum"
    · simp [List.filter_cons, hc, ih]
    · simp [List.filter_cons, hc, ih]

theorem pairs_sec_other (s1 : String) (es : List (String × String))
    (hi : s1 ≠ "install") :
    es.map (fun kv => (s1, kv.1, kv.2))
      = (es.map (fun kv => (s1, kv.1, kv.2))).filter
          (fun t => !(t.1 == "install" && t.2.1 == "install_source_checksum"))
      := by
  induction es with
  | nil => rfl
  | cons kv kvs ih =>
    rw [List.map_cons, List.filter_cons, if_pos (by simp [hi]), ← ih]

theorem docPairs_secFix (d : ConfigDoc) :
    docPairs (d.map (fun sec =>
        if sec.1 == "install" then
          (sec.1, sec.2.filter (fun kv => !(kv.1 == "install_source_checksum")))
        else sec))
      = (docPairs d).filter
          (fun t => !(t.1 == "install" && t.2.1 == "install_source_checksum"))
      := by
  induction d with
  | nil => rfl
  | cons sec rest ih =>
    simp only [List.map_cons, docPairs, List.flatMap_cons,
      List.filter_append] at ih ⊢
    rw [ih]
    by_cases hi : sec.1 = "install"
    · rw [if_pos (by simp [hi])]
      rw [pairs_sec_install sec.1 sec.2 hi]
    · rw [if_neg (by simp [hi])]
      rw [← pairs_sec_other sec.1 sec.2 hi]

theorem docPairs_removeChecksum (d : ConfigDoc) :
    docPairs (removeChecksum d)
      = (docPairs d).filter
          (fun t => !(t.1 == "install" && t.2.1 == "install_source_checksum"))
      := by
  unfold removeChecksum
  by_cases hg : docHasKey d "install" "install_source_checksum" = true
  · rw [if_pos hg]
    exact docPairs_secFix d
  · rw [if_neg hg]
    have hall : ∀ t ∈ docPairs d,
        (!(t.1 == "install" && t.2.1 == "install_source_checksum"))
          = true := by
      intro t ht
      rcases mem_docPairs.mp ht with ⟨sec, hsec, kv, hkv, rfl⟩
      by_cases hi : sec.1 = "install"
      · by_cases hc : kv.1 = "install_source_checksum"
        · exact absurd (docHasKey_iff.mpr ⟨sec, hsec, hi, kv, hkv, hc⟩) hg
        · simp [hc]
      · simp [hi]
    exact (List.filter_eq_self.mpr hall).symm

/-! Preservation of the no-match property across the later steps. -/

/-- Does the final component of a path match the pattern (rglob view)? -/
def nameMatches (pat : String) (p : List String) : Bool :=
  match p.getLast? with
  | some n => globMatch pat.toList n.toList
  | none => false

theorem entryMatches_eq (pat : String) (e : Entry) :
    entryMatches pat e = nameMatches pat e.path := rfl

theorem nameMatches_nil (pat : String) : nameMatches pat [] = false := rfl

theorem meta_paths_no_match :
    ∀ pat ∈ patternsToRemove,
      nameMatches pat metadataP = false
        ∧ nameMatches pat defaultMetaP = false := by decide

theorem noMatch_filter {t : FS} {pat : String} {b : Entry → Bool}
    (h : NoMatch t pat) : NoMatch (t.filter b) pat :=
  fun e he => h e (List.mem_of_mem_filter he)

theorem noMatch_map {t : FS} {pat : String} {f : Entry → Entry}
    (hf : ∀ e, (f e).path = e.path) (h : NoMatch t pat) :
    NoMatch (t.map f) pat := by
  intro x hx
  rcases List.mem_map.mp hx with ⟨e, he, rfl⟩
  rw [entryMatches_eq, hf e, ← entryMatches_eq]
  exact h e he

theorem noMatch_append {t l : FS} {pat : String} (h : NoMatch t pat)
    (hl : NoMatch l pat) : NoMatch (t ++ l) pat := by
  intro e he
  rcases List.mem_append.mp he with h2 | h2
  · exact h e h2
  · exact hl e h2

theorem noMatch_chmod {t : FS} {p : List String} {m : Nat} {pat : String}
    (h : NoMatch t pat) : NoMatch (chmodAt t p m) pat :=
  noMatch_map (chmod_path p m) h

theorem noMatch_write {t : FS} {p : List String} {c : Content}
    {pat : String} (hp : nameMatches pat p = false) (h : NoMatch t pat) :
    NoMatch (writeFileAt t p c) pat := by
  unfold writeFileAt
  by_cases hex : pexists t p = true
  · rw [if_pos hex]; exact noMatch_map (writeF_path p c) h
  · rw [if_neg hex]
    refine noMatch_append h (fun e he => ?_)
    rcases List.mem_singleton.mp he with rfl
    exact hp

theorem noMatch_ensure {t : FS} {p : List String} {pat : String}
    (hp : nameMatches pat p = false) (h : NoMatch t pat) :
    NoMatch (ensureDirAt t p).1 pat := by
  unfold ensureDirAt
  by_cases h1 : isDirAt t p = true
  · rw [if_pos h1]; exact h
  · rw [if_neg h1]
    by_cases h2 : pexists t p = true
    · rw [if_pos h2]; exact h
    · rw [if_neg h2]
      refine noMatch_append h (fun e he => ?_)
      rcases List.mem_singleton.mp he with rfl
      exact hp

/-- Equation lemmas for the composition of the three meta actions. -/
theorem fix_meta_eq_err1 {t t1 : FS} (h : metaStep1 t = (t1, some ())) :
    fix_meta_files t = (t1, some ()) := by
  unfold fix_meta_files
  simp only [h]

theorem fix_meta_eq_err2 {t t1 t2 : FS} (h1 : metaStep1 t = (t1, none))
    (h2 : metaStep2 t1 = (t2, some ())) :
    fix_meta_files t = (t2, some ()) := by
  unfold fix_meta_files
  simp only [h1, h2]

theorem fix_meta_eq_ok {t t1 t2 : FS} (h1 : metaStep1 t = (t1, none))
    (h2 : metaStep2 t1 = (t2, none)) :
    fix_meta_files t = metaStep3 t2 := by
  unfold fix_meta_files
  simp only [h1, h2]

theorem metaStep2_eq_err {t t2 : FS}
    (h : ensureDirAt t [] = (t2, some ())) :
    metaStep2 t = (t2, some ()) := by
  unfold metaStep2
  simp only [h]

theorem metaStep2_eq_ok {t t2 : FS} (h : ensureDirAt t [] = (t2, none)) :
    metaStep2 t = ensureDirAt t2 metadataP := by
  unfold metaStep2
  simp only [h]

/-- Transport of an invariant through the three actions of
fix_meta_files. -/
theorem fix_meta_pres {P : FS → Prop}
    (h1 : ∀ t, P t → P (metaStep1 t).1)
    (h2 : ∀ t, P t → P (metaStep2 t).1)
    (h3 : ∀ t, P t → P (metaStep3 t).1) :
    ∀ t, P t → P (fix_meta_files t).1 := by
  intro t ht
  rcases hE1 : metaStep1 t with ⟨t1, e1⟩
  have ht1 : P t1 := by have := h1 t ht; rw [hE1] at this; exact this
  cases e1 with
  | some u =>
    cases u
    rw [fix_meta_eq_err1 hE1]
    exact ht1
  | none =>
    rcases hE2 : metaStep2 t1 with ⟨t2, e2⟩
    have ht2 : P t2 := by have := h2 t1 ht1; rw [hE2] at this; exact this
    cases e2 with
    | some u =>
      cases u
      rw [fix_meta_eq_err2 hE1 hE2]
      exact ht2
    | none =>
      rw [fix_meta_eq_ok hE1 hE2]
      exact h3 t2 ht2

theorem noMatch_metaStep1 {pat : String} (t : FS) (h : NoMatch t pat) :
    NoMatch (metaStep1 t).1 pat := by
  unfold metaStep1
  by_cases h1 : pexists t localMetaP = true
  · rw [if_pos h1]
    by_cases h2 : isDirAt t localMetaP = true
    · rw [if_pos h2]; exact h
    · rw [if_neg h2]; exact noMatch_filter h
  · rw [if_neg h1]; exact h

theorem noMatch_metaStep2 {pat : String} (hpat : pat ∈ patternsToRemove)
    (t : FS) (h : NoMatch t pat) : NoMatch (metaStep2 t).1 pat := by
  rcases hE : ensureDirAt t [] with ⟨t2, e2⟩
  have ht2 : NoMatch t2 pat := by
    have := noMatch_ensure (nameMatches_nil pat) h
    rw [hE] at this; exact this
  cases e2 with
  | some u =>
    cases u
    rw [metaStep2_eq_err hE]
    exact ht2
  | none =>
    rw [metaStep2_eq_ok hE]
    exact noMatch_ensure (meta_paths_no_match pat hpat).1 ht2

theorem noMatch_metaStep3 {pat : String} (hpat : pat ∈ patternsToRemove)
    (t : FS) (h : NoMatch t pat) : NoMatch (metaStep3 t).1 pat := by
  unfold metaStep3
  by_cases h1 : isDirAt t defaultMetaP = true
  · rw [if_pos h1]; exact h
  · rw [if_neg h1]
    exact noMatch_chmod
      (noMatch_write (meta_paths_no_match pat hpat).2 h)

theorem noMatch_fix_meta {pat : String} (hpat : pat ∈ patternsToRemove)
    {t : FS} (h : NoMatch t pat) : NoMatch (fix_meta_files t).1 pat :=
  fix_meta_pres (noMatch_metaStep1) (noMatch_metaStep2 hpat)
    (noMatch_metaStep3 hpat) t h

theorem noMatch_fix_app_conf {pat : String} {t : FS} (h : NoMatch t pat) :
    NoMatch (fix_app_conf t).1 pat := by
  unfold fix_app_conf
  by_cases h1 : pexists t appConfP = true
  · rw [if_pos h1]
    by_cases h2 : isDirAt t appConfP = true
    · rw [if_pos h2]; exact h
    · rw [if_neg h2]
      cases hc : contentAt t appConfP with
      | none => exact h
      | some c =>
        cases c with
        | text s => exact h
        | ini d =>
          refine noMatch_chmod ?_
          unfold writeFileAt
          rw [if_pos h1]
          exact noMatch_map (writeF_path appConfP _) h
  · rw [if_neg h1]; exact h

theorem noMatch_set_permissions {pat : String} {t : FS}
    (h : NoMatch t pat) : NoMatch (set_permissions t).1 pat := by
  unfold set_permissions
  by_cases h1 : isDirAt t [] = true
  · rw [if_pos h1]
    exact noMatch_map (fun e => rfl) h
  · rw [if_neg h1]
    by_cases h2 : pexists t [] = true
    · rw [if_pos h2]; exact noMatch_chmod h
    · rw [if_neg h2]; exact h

/-- After the four tree steps, no entry matches any of the artifact
patterns. -/
theorem treePipe_noMatch (t : FS) :
    ∀ pat ∈ patternsToRemove, NoMatch (treePipe t) pat := by
  intro pat hpat
  unfold treePipe
  exact noMatch_set_permissions
    (noMatch_fix_meta hpat (noMatch_fix_app_conf (clean_app_clears t pat hpat)))

/-! Equation lemmas for the remaining steps, and World-level helpers. -/

theorem pexists_of_contentAt {fs : FS} {p : List String} {c : Content}
    (h : contentAt fs p = some c) : pexists fs p = true := by
  induction fs with
  | nil => simp [contentAt] at h
  | cons e es ih =>
    by_cases hp : e.path = p
    · simp [pexists, hp]
    · rw [contentAt, if_neg (by simpa using hp)] at h
      simp [pexists, ih h]

theorem pexists_of_isDirAt {fs : FS} {p : List String}
    (h : isDirAt fs p = true) : pexists fs p = true := by
  rcases isDirAt_iff.mp h with ⟨e, he, hp, _⟩
  exact pexists_iff.mpr ⟨e, he, hp⟩

theorem fix_app_conf_eq_absent {fs : FS}
    (h : pexists fs appConfP = false) : fix_app_conf fs = (fs, none) := by
  unfold fix_app_conf
  rw [if_neg (by simp [h])]

theorem fix_app_conf_eq_dir {fs : FS} (h : isDirAt fs appConfP = true) :
    fix_app_conf fs = (fs, some ()) := by
  unfold fix_app_conf
  rw [if_pos (pexists_of_isDirAt h), if_pos h]

theorem fix_app_conf_eq_text {fs : FS} {s : String}
    (hc : contentAt fs appConfP = some (Content.text s))
    (hd : isDirAt fs appConfP = false) : fix_app_conf fs = (fs, some ()) := by
  unfold fix_app_conf
  rw [if_pos (pexists_of_contentAt hc), if_neg (by simp [hd])]
  simp only [hc]

theorem fix_app_conf_eq_ini {fs : FS} {d : ConfigDoc}
    (hc : contentAt fs appConfP = some (Content.ini d))
    (hd : isDirAt fs appConfP = false) :
    fix_app_conf fs
      = (chmodAt (writeFileAt fs appConfP (Content.ini (removeChecksum d)))
          appConfP filePerms, none) := by
  unfold fix_app_conf
  rw [if_pos (pexists_of_contentAt hc), if_neg (by simp [hd])]
  simp only [hc]

theorem metaStep1_eq_dir {fs : FS} (h : isDirAt fs localMetaP = true) :
    metaStep1 fs = (fs, some ()) := by
  unfold metaStep1
  rw [if_pos (pexists_of_isDirAt h), if_pos h]

theorem metaStep1_eq_file {fs : FS} (hx : pexists fs localMetaP = true)
    (hd : isDirAt fs localMetaP = false) :
    metaStep1 fs = (unlink fs localMetaP, none) := by
  unfold metaStep1
  rw [if_pos hx, if_neg (by simp [hd])]

theorem metaStep1_eq_absent {fs : FS} (hx : pexists fs localMetaP = false) :
    metaStep1 fs = (fs, none) := by
  unfold metaStep1
  rw [if_neg (by simp [hx])]

theorem metaStep3_eq_dir {fs : FS} (h : isDirAt fs defaultMetaP = true) :
    metaStep3 fs = (fs, some ()) := by
  unfold metaStep3
  rw [if_pos h]

theorem metaStep3_eq_write {fs : FS} (h : isDirAt fs defaultMetaP = false) :
    metaStep3 fs
      = (chmodAt
          (writeFileAt fs defaultMetaP (Content.text defaultMetaContent))
          defaultMetaP filePerms, none) := by
  unfold metaStep3
  rw [if_neg (by simp [h])]

theorem set_permissions_eq_dir {fs : FS} (h : isDirAt fs [] = true) :
    set_permissions fs
      = (fs.map (fun e => { e with mode := policyMode e }), none) := by
  unfold set_permissions
  rw [if_pos h]

theorem set_permissions_eq_file {fs : FS} (hd : isDirAt fs [] = false)
    (hx : pexists fs [] = true) :
    set_permissions fs = (chmodAt fs [] dirPerms, none) := by
  unfold set_permissions
  rw [if_neg (by simp [hd]), if_pos hx]

theorem set_permissions_eq_absent {fs : FS} (hd : isDirAt fs [] = false)
    (hx : pexists fs [] = false) : set_permissions fs = (fs, some ()) := by
  unfold set_permissions
  rw [if_neg (by simp [hd]), if_neg (by simp [hx])]

theorem create_package_eq_ok {w : World} (h : pexists w.tree [] = true) :
    create_package w
      = ({ w with cwd := w.parentDir,
                  tarball := some (archiveOf w.name w.tree) }, none) := by
  unfold create_package
  rw [if_pos h]

theorem create_package_eq_err {w : World} (h : pexists w.tree [] = false) :
    create_package w
      = ({ w with cwd := w.parentDir, tarball := some [] }, some ()) := by
  unfold create_package
  rw [if_neg (by simp [h])]

theorem create_package_tree (w : World) :
    (create_package w).1.tree = w.tree := by
  by_cases h : pexists w.tree [] = true
  · rw [create_package_eq_ok h]
  · rw [create_package_eq_err (by simpa using h)]

theorem create_package_cwd (w : World) :
    (create_package w).1.cwd = w.parentDir := by
  by_cases h : pexists w.tree [] = true
  · rw [create_package_eq_ok h]
  · rw [create_package_eq_err (by simpa using h)]

theorem create_package_tarball (w : World) :
    ((create_package w).1.tarball).isSome = true := by
  by_cases h : pexists w.tree [] = true
  · rw [create_package_eq_ok h]; rfl
  · rw [create_package_eq_err (by simpa using h)]; rfl

theorem create_package_parent (w : World) :
    (create_package w).1.parentDir = w.parentDir := by
  by_cases h : pexists w.tree [] = true
  · rw [create_package_eq_ok h]
  · rw [create_package_eq_err (by simpa using h)]

theorem create_package_name (w : World) :
    (create_package w).1.name = w.name := by
  by_cases h : pexists w.tree [] = true
  · rw [create_package_eq_ok h]
  · rw [create_package_eq_err (by simpa using h)]

theorem prepare_app_tree (w : World) :
    (prepare_app w).tree = treePipe w.tree := by
  unfold prepare_app
  rw [create_package_tree]

theorem prepare_app_cwd (w : World) :
    (prepare_app w).cwd = w.parentDir := by
  unfold prepare_app
  rw [create_package_cwd]

theorem prepare_app_parent (w : World) :
    (prepare_app w).parentDir = w.parentDir := by
  unfold prepare_app
  rw [create_package_parent]

theorem prepare_app_name (w : World) :
    (prepare_app w).name = w.name := by
  unfold prepare_app
  rw [create_package_name]

theorem prepare_app_tarball (w : World) :
    ((prepare_app w).tarball).isSome = true := by
  unfold prepare_app
  rw [create_package_tarball]

/-! The claim theorems, part 1. -/

/-- C4: for every tree, after clean_app no entry matching any of the
forbidden-artifact patterns remains, and clean_app raises no error, in
particular when a match of a later pattern lay beneath a directory already
deleted by an earlier pattern (such vanished matches are skipped). -/
theorem c4_clean_removes_all (t : FS) (pat : String) (e : Entry)
    (hpat : pat ∈ patternsToRemove) (he : e ∈ (clean_app t).fs) :
    (clean_app t).err = none ∧ entryMatches pat e = false :=
  ⟨clean_app_err t, clean_app_clears t pat hpat e he⟩

theorem c4_witness :
    (clean_app [⟨[], true, Content.text "", 0o755⟩,
      ⟨["bin"], true, Content.text "", 0o755⟩,
      ⟨["__pycache__"], true, Content.text "", 0o755⟩,
      ⟨["__pycache__", "m.pyc"], false, Content.text "", 0o644⟩]).err = none
    ∧ entryMatches "*.pyc" ⟨["bin"], true, Content.text "", 0o755⟩
        = false :=
  c4_clean_removes_all _ "*.pyc" ⟨["bin"], true, Content.text "", 0o755⟩
    (by decide) (by decide)

/-! The lazy walk of rglobVisit emits exactly one Removed event per entry
it deletes: a directory's matches are read from the live tree when the
walk reaches it, so every yielded match still exists, and deleting one
sibling match never removes another (they sit at the same depth). -/

theorem rglobVisit_zero (fail : List String → Bool) (pat : String)
    (work : List (List String)) (s : CleanState) :
    rglobVisit fail pat 0 work s = s := rfl

theorem rglobVisit_nil (fail : List String → Bool) (pat : String)
    (n : Nat) (s : CleanState) :
    rglobVisit fail pat (n + 1) [] s = s := rfl

theorem rglobVisit_cons (fail : List String → Bool) (pat : String)
    (n : Nat) (D : List String) (work : List (List String))
    (s : CleanState) (h : s.err = none) :
    rglobVisit fail pat (n + 1) (D :: work) s =
      rglobVisit fail pat n
        (childDirs ((scanMatches s.fs D pat).foldl (visitC fail) s).fs D
          ++ work)
        ((scanMatches s.fs D pat).foldl (visitC fail) s) := by
  obtain ⟨f0, l0, r0, e0⟩ := s
  change e0 = none at h
  subst h
  rfl

theorem startsWithPath_same_length {p q : List String}
    (hl : p.length = q.length) (hne : p ≠ q) :
    startsWithPath p q = false := by
  induction p generalizing q with
  | nil =>
    cases q with
    | nil => exact absurd rfl hne
    | cons b bs => simp at hl
  | cons a as ih =>
    cases q with
    | nil => simp at hl
    | cons b bs =>
      by_cases hab : a = b
      · subst hab
        have has : as ≠ bs := fun h => hne (by rw [h])
        have hs : startsWithPath as bs = false :=
          ih (by simpa using hl) has
        simp [startsWithPath, hs]
      · simp [startsWithPath, hab]

theorem isChildOf_length {D p : List String} (h : isChildOf D p = true) :
    p.length = D.length + 1 := by
  unfold isChildOf at h
  cases p with
  | nil => simp at h
  | cons a as =>
    simp only [List.isEmpty_cons, Bool.not_false, Bool.true_and,
      beq_iff_eq] at h
    rw [← h, List.length_dropLast]
    simp

theorem nodup_paths_filter {fs : FS} {b : Entry → Bool}
    (h : (fs.map (fun e => e.path)).Nodup) :
    ((fs.filter b).map (fun e => e.path)).Nodup :=
  List.Nodup.sublist (List.Sublist.map _ (List.filter_sublist fs)) h

theorem scanMatches_exists {fs : FS} {D : List String} {pat : String} :
    ∀ m ∈ scanMatches fs D pat, pexists fs m = true := by
  intro m hm
  simp only [scanMatches] at hm
  obtain ⟨e, he, rfl⟩ := List.mem_map.mp hm
  exact pexists_iff.mpr ⟨e, (List.mem_filter.mp he).1, rfl⟩

theorem scanMatches_length {fs : FS} {D : List String} {pat : String} :
    ∀ m ∈ scanMatches fs D pat, m.length = D.length + 1 := by
  intro m hm
  simp only [scanMatches] at hm
  obtain ⟨e, he, rfl⟩ := List.mem_map.mp hm
  have hb := (List.mem_filter.mp he).2
  rw [Bool.and_eq_true] at hb
  exact isChildOf_length hb.1

theorem scanMatches_nodup {fs : FS} {D : List String} {pat : String}
    (h : (fs.map (fun e => e.path)).Nodup) :
    (scanMatches fs D pat).Nodup :=
  nodup_paths_filter h

theorem visitC_nodup {f : List String → Bool} {s : CleanState}
    {p : List String}
    (h : (s.fs.map (fun e => e.path)).Nodup) :
    ((visitC f s p).fs.map (fun e => e.path)).Nodup := by
  cases hv : s.err with
  | some u => cases u; rw [visitC_of_err f s p hv]; exact h
  | none =>
    rw [visitC_of_none f s p hv]
    by_cases hf : isFileAt s.fs p = true
    · rw [if_pos hf]
      by_cases hl : f p = true
      · rw [if_pos hl]; exact h
      · rw [if_neg hl]
        unfold unlink
        exact nodup_paths_filter h
    · rw [if_neg hf]
      by_cases hd : isDirAt s.fs p = true
      · rw [if_pos hd]
        by_cases hl : f p = true
        · rw [if_pos hl]; exact h
        · rw [if_neg hl]
          unfold rmtree
          exact nodup_paths_filter h
      · rw [if_neg hd]; exact h

/-- Visiting a path that exists deletes it: one Removed event, one
removal, no exception. -/
theorem visitC_removes_one {s : CleanState} {p : List String}
    (herr : s.err = none) (hp : pexists s.fs p = true) :
    (visitC noFail s p).logs = s.logs + 1
    ∧ (visitC noFail s p).removed = s.removed + 1
    ∧ (visitC noFail s p).err = none := by
  rw [visitC_nf_of_none s p herr]
  by_cases hf : isFileAt s.fs p = true
  · rw [if_pos hf]; exact ⟨rfl, rfl, herr⟩
  · have hpe := hp
    rw [pexists_eq_file_or_dir] at hpe
    have hd : isDirAt s.fs p = true := by
      cases hdd : isDirAt s.fs p
      · rw [hdd, Bool.or_false] at hpe; exact absurd hpe hf
      · rfl
    rw [if_neg hf, if_pos hd]
    exact ⟨rfl, rfl, herr⟩

/-- Visiting one path keeps every other path it does not dominate. -/
theorem visitC_keeps_sibling {s : CleanState} {p q : List String}
    (herr : s.err = none) (hne : q ≠ p)
    (hsw : startsWithPath p q = false)
    (hq : pexists s.fs q = true) :
    pexists (visitC noFail s p).fs q = true := by
  obtain ⟨e, he, hep⟩ := pexists_iff.mp hq
  rw [visitC_nf_of_none s p herr]
  by_cases hf : isFileAt s.fs p = true
  · rw [if_pos hf]
    exact pexists_iff.mpr
      ⟨e, mem_unlink.mpr ⟨he, by rw [hep]; exact hne⟩, hep⟩
  · rw [if_neg hf]
    by_cases hd : isDirAt s.fs p = true
    · rw [if_pos hd]
      exact pexists_iff.mpr
        ⟨e, mem_rmtree.mpr ⟨he, by rw [hep]; exact hsw⟩, hep⟩
    · rw [if_neg hd]
      exact pexists_iff.mpr ⟨e, he, hep⟩

/-- Folding the loop body over distinct same-depth paths that all exist
advances events and removals in lockstep. -/
theorem fold_visit_siblings (L : Nat) :
    ∀ (ms : List (List String)) (s : CleanState),
    s.err = none → ms.Nodup →
    (∀ m ∈ ms, m.length = L) →
    (∀ m ∈ ms, pexists s.fs m = true) →
    (s.fs.map (fun e => e.path)).Nodup →
    (ms.foldl (visitC noFail) s).err = none
    ∧ (ms.foldl (visitC noFail) s).logs + s.removed
        = (ms.foldl (visitC noFail) s).removed + s.logs
    ∧ ((ms.foldl (visitC noFail) s).fs.map (fun e => e.path)).Nodup := by
  intro ms
  induction ms with
  | nil =>
    intro s herr _ _ _ hfs
    simp only [List.foldl_nil]
    exact ⟨herr, by omega, hfs⟩
  | cons m ms ih =>
    intro s herr hnd hlen hex hfs
    simp only [List.foldl_cons]
    have hm : pexists s.fs m = true := hex m (List.mem_cons_self m ms)
    obtain ⟨h1, h2, h3⟩ := visitC_removes_one herr hm
    obtain ⟨hm0, hnd'⟩ := List.nodup_cons.mp hnd
    have hex' : ∀ q ∈ ms, pexists (visitC noFail s m).fs q = true := by
      intro q hq
      have hqm : q ≠ m := fun h => hm0 (h ▸ hq)
      have hsw : startsWithPath m q = false :=
        startsWithPath_same_length
          (by rw [hlen m (List.mem_cons_self m ms),
                  hlen q (List.mem_cons_of_mem m hq)])
          (Ne.symm hqm)
      exact visitC_keeps_sibling herr hqm hsw
        (hex q (List.mem_cons_of_mem m hq))
    obtain ⟨g1, g2, g3⟩ := ih (visitC noFail s m) h3 hnd'
      (fun q hq => hlen q (List.mem_cons_of_mem m hq)) hex'
      (visitC_nodup hfs)
    exact ⟨g1, by omega, g3⟩

/-- The whole lazy walk of one pattern advances events and removals in
lockstep: every match a scan yields exists when visited. -/
theorem rglobVisit_balanced (pat : String) (n : Nat) :
    ∀ (work : List (List String)) (s : CleanState),
    s.err = none → (s.fs.map (fun e => e.path)).Nodup →
    (rglobVisit noFail pat n work s).err = none
    ∧ (rglobVisit noFail pat n work s).logs + s.removed
        = (rglobVisit noFail pat n work s).removed + s.logs
    ∧ ((rglobVisit noFail pat n work s).fs.map (fun e => e.path)).Nodup := by
  induction n with
  | zero =>
    intro work s herr hnd
    simp only [rglobVisit_zero]
    exact ⟨herr, by omega, hnd⟩
  | succ n ih =>
    intro work s herr hnd
    cases work with
    | nil =>
      simp only [rglobVisit_nil]
      exact ⟨herr, by omega, hnd⟩
    | cons D rest =>
      rw [rglobVisit_cons noFail pat n D rest s herr]
      obtain ⟨e1, e2, e3⟩ := fold_visit_siblings (D.length + 1)
        (scanMatches s.fs D pat) s herr (scanMatches_nodup hnd)
        scanMatches_length scanMatches_exists hnd
      obtain ⟨g1, g2, g3⟩ := ih
        (childDirs ((scanMatches s.fs D pat).foldl (visitC noFail) s).fs D
          ++ rest)
        ((scanMatches s.fs D pat).foldl (visitC noFail) s) e1 e3
      exact ⟨g1, by omega, g3⟩

theorem cleanPatternLazy_balanced {pat : String} {s : CleanState}
    (herr : s.err = none) (hnd : (s.fs.map (fun e => e.path)).Nodup) :
    (cleanPatternLazy noFail pat s).err = none
    ∧ (cleanPatternLazy noFail pat s).logs + s.removed
        = (cleanPatternLazy noFail pat s).removed + s.logs
    ∧ ((cleanPatternLazy noFail pat s).fs.map (fun e => e.path)).Nodup := by
  unfold cleanPatternLazy
  rw [herr]
  exact rglobVisit_balanced pat (s.fs.length + 1) [[]] s herr hnd

theorem cleanLazy_fold_balanced :
    ∀ (pats : List String) (s : CleanState),
    s.err = none → (s.fs.map (fun e => e.path)).Nodup →
    (pats.foldl (fun s pat => cleanPatternLazy noFail pat s) s).err = none
    ∧ (pats.foldl (fun s pat => cleanPatternLazy noFail pat s) s).logs
        + s.removed
      = (pats.foldl (fun s pat => cleanPatternLazy noFail pat s) s).removed
        + s.logs
    ∧ ((pats.foldl (fun s pat => cleanPatternLazy noFail pat s) s).fs.map
        (fun e => e.path)).Nodup := by
  intro pats
  induction pats with
  | nil =>
    intro s herr hnd
    simp only [List.foldl_nil]
    exact ⟨herr, by omega, hnd⟩
  | cons q qs ih =>
    intro s herr hnd
    simp only [List.foldl_cons]
    obtain ⟨e1, e2, e3⟩ := cleanPatternLazy_balanced herr hnd
    obtain ⟨g1, g2, g3⟩ := ih (cleanPatternLazy noFail q s) e1 e3
    exact ⟨g1, by omega, g3⟩

/-- A tree with a second pattern match nested beneath a directory the same
pattern removes first: the walk deletes the outer __pycache__ before
listing the root's subdirectories, so it never descends into it and the
nested match is never yielded. -/
def c8FS : FS :=
  [⟨[], true, Content.text "", 0o755⟩,
   ⟨["__pycache__"], true, Content.text "", 0o755⟩,
   ⟨["__pycache__", "s"], true, Content.text "", 0o755⟩,
   ⟨["__pycache__", "s", "__pycache__"], true, Content.text "", 0o755⟩]

/-- On the nested tree the lazy walk emits one Removed event for the one
entry it removes (the outer __pycache__, which takes its subtree with it),
not one per snapshot match. -/
theorem clean_app_lazy_nested :
    (clean_app_lazy c8FS).logs = 1 ∧ (clean_app_lazy c8FS).removed = 1
    ∧ pexists (clean_app_lazy c8FS).fs ["__pycache__"] = false := by
  refine ⟨by decide, by decide, by decide⟩

/-- C8: clean_app emits exactly one informational Removed event per entry
actually removed.  Under the lazy generator semantics of Path.rglob — a
directory's matches are read when the walk reaches it, and the walk
descends only into directories still present — on every tree whose entries
have distinct paths (a filesystem invariant) the number of events equals
the number of deletions and no deletion raises, so no event is ever
emitted for a matched path that no longer exists when visited. -/
theorem c8_one_event_per_removal (t : FS)
    (hnd : (t.map (fun e => e.path)).Nodup) :
    (clean_app_lazy t).logs = (clean_app_lazy t).removed
    ∧ (clean_app_lazy t).err = none := by
  unfold clean_app_lazy
  obtain ⟨e1, e2, _⟩ := cleanLazy_fold_balanced patternsToRemove
    ⟨t, 0, 0, none⟩ rfl hnd
  refine ⟨?_, e1⟩
  have e2' : (patternsToRemove.foldl
        (fun s pat => cleanPatternLazy noFail pat s) ⟨t, 0, 0, none⟩).logs
        + 0
      = (patternsToRemove.foldl
        (fun s pat => cleanPatternLazy noFail pat s) ⟨t, 0, 0, none⟩).removed
        + 0 := e2
  omega

theorem c8_witness :
    (clean_app_lazy c8FS).logs = (clean_app_lazy c8FS).removed
    ∧ (clean_app_lazy c8FS).err = none :=
  c8_one_event_per_removal c8FS (by decide)

/-- C9: create_package leaves the process working directory at the parent
of the application root, and neither the rest of create_package nor the
remainder of the pipeline restores it. -/
theorem c9_cwd_side_effect (w : World) :
    (create_package w).1.cwd = w.parentDir
    ∧ (prepare_app w).cwd = w.parentDir
    ∧ (main_run w).1.cwd = w.parentDir :=
  ⟨create_package_cwd w, prepare_app_cwd w, prepare_app_cwd w⟩

/-- Deletion-failure oracle and tree for the C10 run: deleting the first
matched file raises. -/
def c10Fail : List String → Bool := fun p => p == ["a.pyc"]

def c10FS : FS :=
  [⟨[], true, Content.text "", 0o755⟩,
   ⟨["a.pyc"], false, Content.text "", 0o644⟩,
   ⟨["b.pyc"], false, Content.text "", 0o644⟩]

/-- C10: one exception handler wraps the whole pattern/match iteration of
clean_app: once a deletion raises, every later match of the current
pattern and every later pattern is skipped (the state passes through both
loops unchanged), and on a concrete tree where deleting the first match
raises, the error is recorded, the second match of the same pattern
survives, and nothing was removed. -/
theorem c10_single_handler :
    (∀ (fail : List String → Bool) (pat : String) (s : CleanState),
        s.err = some () → cleanPatternC fail pat s = s)
    ∧ (∀ (fail : List String → Bool) (p : List String) (s : CleanState),
        s.err = some () → visitC fail s p = s)
    ∧ ((clean_app_run c10Fail c10FS).err = some ()
       ∧ pexists (clean_app_run c10Fail c10FS).fs ["b.pyc"] = true
       ∧ entryMatches "*.pyc"
           ⟨["b.pyc"], false, Content.text "", 0o644⟩ = true
       ∧ (clean_app_run c10Fail c10FS).removed = 0) :=
  ⟨fun fail pat s h => cleanPatternC_of_err fail pat s h,
   fun fail p s h => visitC_of_err fail s p h,
   by refine ⟨by decide, by decide, by decide, by decide⟩⟩

theorem c10_witness :
    cleanPatternC noFail "*.pyc" ⟨[], 0, 0, some ()⟩ = ⟨[], 0, 0, some ()⟩
    ∧ visitC noFail ⟨[], 0, 0, some ()⟩ ["x"] = ⟨[], 0, 0, some ()⟩ :=
  ⟨c10_single_handler.1 noFail "*.pyc" ⟨[], 0, 0, some ()⟩ rfl,
   c10_single_handler.2.1 noFail ["x"] ⟨[], 0, 0, some ()⟩ rfl⟩

/-- C5: the pipeline is total on every input state: each step body's
error is dropped at the step boundary, the six steps always run in order
on the tree, the final steps still execute whatever earlier steps
encountered, and the process exits with code 0. -/
theorem c5_errors_contained (w : World) :
    (main_run w).2 = 0
    ∧ (main_run w).1 = prepare_app w
    ∧ (prepare_app w).tree
        = (set_permissions
            (fix_meta_files (fix_app_conf (clean_app w.tree).fs).1).1).1
    ∧ (prepare_app w).cwd = w.parentDir
    ∧ ((prepare_app w).tarball).isSome = true :=
  ⟨rfl, rfl, prepare_app_tree w, prepare_app_cwd w, prepare_app_tarball w⟩

/-! Claim theorems, part 2: the configuration rewrite and the archive. -/

/-- C1: when default/app.conf parses to a document whose install section
holds install_source_checksum, fix_app_conf succeeds, the written file
holds the rewritten document, that document no longer has the key in its
install section, while its section list (names and order) and every other
(section, key, value) triple are unchanged — the rewritten pairs are
exactly the original ones minus the install/install_source_checksum
pairs. -/
theorem c1_checksum_removed (fs : FS) (d : ConfigDoc)
    (hc : contentAt fs appConfP = some (Content.ini d))
    (hd : isDirAt fs appConfP = false)
    (_hk : docHasKey d "install" "install_source_checksum" = true) :
    (fix_app_conf fs).2 = none
    ∧ contentAt (fix_app_conf fs).1 appConfP
        = some (Content.ini (removeChecksum d))
    ∧ docHasKey (removeChecksum d) "install" "install_source_checksum"
        = false
    ∧ docPairs (removeChecksum d)
        = (docPairs d).filter
            (fun t =>
              !(t.1 == "install" && t.2.1 == "install_source_checksum"))
    ∧ (removeChecksum d).map Prod.fst = d.map Prod.fst := by
  rw [fix_app_conf_eq_ini hc hd]
  refine ⟨rfl, ?_, removeChecksum_hasKey d, docPairs_removeChecksum d,
    removeChecksum_sections d⟩
  rw [contentAt_chmod, contentAt_write_self]

theorem c1_witness :
    (fix_app_conf [⟨[], true, Content.text "", 0o755⟩,
        ⟨["default"], true, Content.text "", 0o755⟩,
        ⟨["default", "app.conf"], false,
          Content.ini [("install",
            [("install_source_checksum", "abc123"), ("state", "enabled")]),
            ("ui", [("is_visible", "1")])], 0o600⟩]).2 = none
    ∧ contentAt (fix_app_conf [⟨[], true, Content.text "", 0o755⟩,
        ⟨["default"], true, Content.text "", 0o755⟩,
        ⟨["default", "app.conf"], false,
          Content.ini [("install",
            [("install_source_checksum", "abc123"), ("state", "enabled")]),
            ("ui", [("is_visible", "1")])], 0o600⟩]).1 appConfP
        = some (Content.ini (removeChecksum [("install",
            [("install_source_checksum", "abc123"), ("state", "enabled")]),
            ("ui", [("is_visible", "1")])]))
    ∧ docHasKey (removeChecksum [("install",
        [("install_source_checksum", "abc123"), ("state", "enabled")]),
        ("ui", [("is_visible", "1")])]) "install" "install_source_checksum"
        = false
    ∧ docPairs (removeChecksum [("install",
        [("install_source_checksum", "abc123"), ("state", "enabled")]),
        ("ui", [("is_visible", "1")])])
        = (docPairs [("install",
            [("install_source_checksum", "abc123"), ("state", "enabled")]),
            ("ui", [("is_visible", "1")])]).filter
            (fun t =>
              !(t.1 == "install" && t.2.1 == "install_source_checksum"))
    ∧ (removeChecksum [("install",
        [("install_source_checksum", "abc123"), ("state", "enabled")]),
        ("ui", [("is_visible", "1")])]).map Prod.fst
        = [("install",
            [("install_source_checksum", "abc123"), ("state", "enabled")]),
            ("ui", [("is_visible", "1")])].map Prod.fst :=
  c1_checksum_removed _ _ (by decide) (by decide) (by decide)

theorem archive_all_heads (n : String) (t : FS) :
    (archiveOf n t).all (fun a => a.path.head? == some n) = true := by
  rw [List.all_eq_true]
  intro a ha
  rcases List.mem_map.mp ha with ⟨e, he, rfl⟩
  simp

theorem archive_strip (n : String) (t : FS) :
    (archiveOf n t).map (fun a => { a with path := a.path.tail }) = t := by
  unfold archiveOf
  rw [List.map_map]
  exact list_map_self (fun e he => rfl)

theorem archive_filterMap_heads (n : String) (t : FS) :
    (archiveOf n t).filterMap (fun e => e.path.head?)
      = t.map (fun _ => n) := by
  induction t with
  | nil => rfl
  | cons e es ih =>
    simp only [archiveOf, List.map_cons, List.filterMap_cons] at ih ⊢
    simp [ih]

theorem dedup_map_const {t : FS} (hne : t ≠ []) (n : String) :
    (t.map (fun _ => n)).dedup = [n] := by
  induction t with
  | nil => exact absurd rfl hne
  | cons e es ih =>
    cases es with
    | nil => simp
    | cons e2 es2 =>
      rw [List.map_cons]
      rw [List.dedup_cons_of_mem (by simp)]
      exact ih (by simp)

theorem topNames_archive {t : FS} (hne : t ≠ []) (n : String) :
    topNames (archiveOf n t) = [n] := by
  unfold topNames
  rw [archive_filterMap_heads, dedup_map_const hne]

/-- C6: when the application root exists, create_package succeeds, the
sibling name.tar.gz now holds the archive, the first component of every
stored path is the application directory name, the set of top-level names
an extraction would create is exactly that one name, and stripping the
name prefix off the stored entries gives back exactly the packaged
tree. -/
theorem c6_archive_layout (w : World) (h : pexists w.tree [] = true) :
    (create_package w).2 = none
    ∧ (create_package w).1.tarball = some (archiveOf w.name w.tree)
    ∧ (archiveOf w.name w.tree).all
        (fun a => a.path.head? == some w.name) = true
    ∧ topNames (archiveOf w.name w.tree) = [w.name]
    ∧ (archiveOf w.name w.tree).map
        (fun a => { a with path := a.path.tail }) = w.tree := by
  have hne : w.tree ≠ [] := by
    rcases pexists_iff.mp h with ⟨e, he, _⟩
    exact List.ne_nil_of_mem he
  rw [create_package_eq_ok h]
  exact ⟨rfl, rfl, archive_all_heads w.name w.tree,
    topNames_archive hne w.name, archive_strip w.name w.tree⟩

theorem c6_witness :
    (create_package ⟨["tmp"], "myapp",
        [⟨[], true, Content.text "", 0o755⟩,
         ⟨["bin"], true, Content.text "", 0o755⟩,
         ⟨["bin", "run.py"], false, Content.text "code", 0o755⟩],
        ["home"], none⟩).2 = none
    ∧ (create_package ⟨["tmp"], "myapp",
        [⟨[], true, Content.text "", 0o755⟩,
         ⟨["bin"], true, Content.text "", 0o755⟩,
         ⟨["bin", "run.py"], false, Content.text "code", 0o755⟩],
        ["home"], none⟩).1.tarball
        = some (archiveOf "myapp"
            [⟨[], true, Content.text "", 0o755⟩,
             ⟨["bin"], true, Content.text "", 0o755⟩,
             ⟨["bin", "run.py"], false, Content.text "code", 0o755⟩])
    ∧ (archiveOf "myapp"
        [⟨[], true, Content.text "", 0o755⟩,
         ⟨["bin"], true, Content.text "", 0o755⟩,
         ⟨["bin", "run.py"], false, Content.text "code", 0o755⟩]).all
        (fun a => a.path.head? == some "myapp") = true
    ∧ topNames (archiveOf "myapp"
        [⟨[], true, Content.text "", 0o755⟩,
         ⟨["bin"], true, Content.text "", 0o755⟩,
         ⟨["bin", "run.py"], false, Content.text "code", 0o755⟩])
        = ["myapp"]
    ∧ (archiveOf "myapp"
        [⟨[], true, Content.text "", 0o755⟩,
         ⟨["bin"], true, Content.text "", 0o755⟩,
         ⟨["bin", "run.py"], false, Content.text "code", 0o755⟩]).map
        (fun a => { a with path := a.path.tail })
        = [⟨[], true, Content.text "", 0o755⟩,
           ⟨["bin"], true, Content.text "", 0o755⟩,
           ⟨["bin", "run.py"], false, Content.text "code", 0o755⟩] :=
  c6_archive_layout _ (by decide)

/-! Unlink at other paths, uniform deletion, and per-step case lemmas. -/

theorem pexists_unlink_self {fs : FS} {p : List String} :
    pexists (unlink fs p) p = false := by
  cases hx : pexists (unlink fs p) p
  · rfl
  · rcases pexists_iff.mp hx with ⟨e, he, hp⟩
    exact absurd hp (mem_unlink.mp he).2

theorem pexists_unlink_other {fs : FS} {p q : List String} (hq : q ≠ p) :
    pexists (unlink fs p) q = pexists fs q := by
  cases hx : pexists fs q
  · exact pexists_filter_false hx
  · rcases pexists_iff.mp hx with ⟨e, he, hp⟩
    exact pexists_iff.mpr ⟨e, mem_unlink.mpr ⟨he, by rw [hp]; exact hq⟩, hp⟩

theorem isDirAt_unlink_other {fs : FS} {p q : List String} (hq : q ≠ p) :
    isDirAt (unlink fs p) q = isDirAt fs q := by
  cases hx : isDirAt fs q
  · exact isDirAt_filter_false hx
  · rcases isDirAt_iff.mp hx with ⟨e, he, hp, hd⟩
    exact isDirAt_iff.mpr
      ⟨e, mem_unlink.mpr ⟨he, by rw [hp]; exact hq⟩, hp, hd⟩

theorem contentAt_unlink_other {fs : FS} {p q : List String} (hq : q ≠ p) :
    contentAt (unlink fs p) q = contentAt fs q := by
  induction fs with
  | nil => rfl
  | cons e es ih =>
    unfold unlink at ih ⊢
    rw [List.filter_cons]
    by_cases hep : e.path = p
    · rw [if_neg (by simp [hep])]
      rw [ih]
      have : e.path ≠ q := by rw [hep]; exact fun h => hq h.symm
      simp [contentAt, this]
    · rw [if_pos (by simp [hep])]
      by_cases heq : e.path = q
      · simp [contentAt, heq]
      · simp [contentAt, heq, ih]

/-- All of the original entries at a path survive, or none at that path
remain: the composed deletions of clean_app treat a path uniformly. -/
def UniformKeep (orig cur : FS) : Prop :=
  ∀ q, (∀ x ∈ orig, x.path = q → x ∈ cur) ∨ pexists cur q = false

theorem uniformKeep_refl (t : FS) : UniformKeep t t :=
  fun _ => Or.inl (fun _ hx _ => hx)

theorem uniformKeep_filter {orig cur : FS} {b : Entry → Bool}
    (hb : ∀ x y : Entry, x.path = y.path → b x = b y)
    (h : UniformKeep orig cur) : UniformKeep orig (cur.filter b) := by
  intro q
  cases hx : pexists (cur.filter b) q
  · exact Or.inr rfl
  · rcases pexists_iff.mp hx with ⟨y, hy, hyp⟩
    have hyb := (List.mem_filter.mp hy).2
    have hyc := (List.mem_filter.mp hy).1
    rcases h q with hall | habs
    · refine Or.inl (fun x hxo hxq => ?_)
      refine List.mem_filter.mpr ⟨hall x hxo hxq, ?_⟩
      rw [hb x y (by rw [hxq, hyp])]
      exact hyb
    · exact absurd (pexists_iff.mpr ⟨y, hyc, hyp⟩) (by simp [habs])

theorem uniformKeep_visit {orig : FS} {f : List String → Bool}
    {s : CleanState} {p : List String} (h : UniformKeep orig s.fs) :
    UniformKeep orig (visitC f s p).fs := by
  cases hv : s.err with
  | some u => cases u; rw [visitC_of_err f s p hv]; exact h
  | none =>
    rw [visitC_of_none f s p hv]
    by_cases hf : isFileAt s.fs p = true
    · rw [if_pos hf]
      by_cases hl : f p = true
      · rw [if_pos hl]; exact h
      · rw [if_neg hl]
        exact uniformKeep_filter
          (fun x y hxy => by simp [hxy]) h
    · rw [if_neg hf]
      by_cases hd : isDirAt s.fs p = true
      · rw [if_pos hd]
        by_cases hl : f p = true
        · rw [if_pos hl]; exact h
        · rw [if_neg hl]
          exact uniformKeep_filter
            (fun x y hxy => by simp [hxy]) h
      · rw [if_neg hd]; exact h

theorem uniformKeep_foldl_visit {orig : FS} {f : List String → Bool}
    (ps : List (List String)) :
    ∀ s : CleanState, UniformKeep orig s.fs →
      UniformKeep orig ((ps.foldl (visitC f) s).fs) := by
  induction ps with
  | nil => exact fun s h => h
  | cons p ps ih =>
    exact fun s h => ih (visitC f s p) (uniformKeep_visit h)

theorem uniformKeep_pattern {orig : FS} {f : List String → Bool}
    {pat : String} {s : CleanState} (h : UniformKeep orig s.fs) :
    UniformKeep orig ((cleanPatternC f pat s).fs) := by
  cases hv : s.err with
  | some u => cases u; rw [cleanPatternC_of_err f pat s hv]; exact h
  | none =>
    rw [cleanPatternC_of_none f pat s hv]
    exact uniformKeep_foldl_visit _ s h

theorem uniformKeep_clean (t : FS) : UniformKeep t (clean_app t).fs := by
  unfold clean_app clean_app_run
  have base : UniformKeep t (⟨t, 0, 0, none⟩ : CleanState).fs :=
    uniformKeep_refl t
  generalize hs : (⟨t, 0, 0, none⟩ : CleanState) = s at base
  clear hs
  induction patternsToRemove generalizing s with
  | nil => exact base
  | cons pat pats ih =>
    exact ih (cleanPatternC noFail pat s) (uniformKeep_pattern base)

/-- Case analysis of fix_app_conf into its three outcome shapes. -/
theorem fix_app_conf_cases (t : FS) :
    (fix_app_conf t = (t, none) ∧ pexists t appConfP = false)
    ∨ fix_app_conf t = (t, some ())
    ∨ ∃ d, contentAt t appConfP = some (Content.ini d)
        ∧ isDirAt t appConfP = false
        ∧ fix_app_conf t
            = (chmodAt
                (writeFileAt t appConfP (Content.ini (removeChecksum d)))
                appConfP filePerms, none) := by
  by_cases hex : pexists t appConfP = true
  · by_cases hd : isDirAt t appConfP = true
    · exact Or.inr (Or.inl (fix_app_conf_eq_dir hd))
    · have hd2 : isDirAt t appConfP = false := by simpa using hd
      rcases contentAt_isSome hex with ⟨c, hc⟩
      cases c with
      | text s => exact Or.inr (Or.inl (fix_app_conf_eq_text hc hd2))
      | ini d =>
        exact Or.inr (Or.inr ⟨d, hc, hd2, fix_app_conf_eq_ini hc hd2⟩)
  · exact Or.inl ⟨fix_app_conf_eq_absent (by simpa using hex), by
      simpa using hex⟩

theorem pexists_write_present {fs : FS} {p q : List String} {c : Content}
    (hex : pexists fs p = true) :
    pexists (writeFileAt fs p c) q = pexists fs q := by
  unfold writeFileAt
  rw [if_pos hex]
  exact pexists_map (writeF_path p c)

theorem pexists_fix_app_conf (t : FS) (q : List String) :
    pexists (fix_app_conf t).1 q = pexists t q := by
  rcases fix_app_conf_cases t with ⟨he, _⟩ | he | ⟨d, hc, hd, he⟩
  · rw [he]
  · rw [he]
  · rw [he]
    show pexists (chmodAt _ _ _) q = _
    rw [pexists_chmod, pexists_write_present (pexists_of_contentAt hc)]

theorem isDirAt_fix_app_conf (t : FS) (q : List String) :
    isDirAt (fix_app_conf t).1 q = isDirAt t q := by
  rcases fix_app_conf_cases t with ⟨he, _⟩ | he | ⟨d, hc, hd, he⟩
  · rw [he]
  · rw [he]
  · rw [he]
    show isDirAt (chmodAt _ _ _) q = _
    rw [isDirAt_chmod, isDirAt_write]

/-- Case analysis of metaStep1 into its three outcome shapes. -/
theorem metaStep1_cases (t : FS) :
    (metaStep1 t = (t, some ()) ∧ isDirAt t localMetaP = true)
    ∨ (metaStep1 t = (t, none) ∧ pexists t localMetaP = false)
    ∨ (metaStep1 t = (unlink t localMetaP, none)
        ∧ pexists t localMetaP = true ∧ isDirAt t localMetaP = false) := by
  by_cases hx : pexists t localMetaP = true
  · by_cases hd : isDirAt t localMetaP = true
    · exact Or.inl ⟨metaStep1_eq_dir hd, hd⟩
    · have hd2 : isDirAt t localMetaP = false := by simpa using hd
      exact Or.inr (Or.inr ⟨metaStep1_eq_file hx hd2, hx, hd2⟩)
  · exact Or.inr (Or.inl ⟨metaStep1_eq_absent (by simpa using hx),
      by simpa using hx⟩)

/-- Case analysis of ensureDirAt into its three outcome shapes. -/
theorem ensureDir_cases (t : FS) (p : List String) :
    (ensureDirAt t p = (t, none) ∧ isDirAt t p = true)
    ∨ (ensureDirAt t p = (t, some ()) ∧ isDirAt t p = false
        ∧ pexists t p = true)
    ∨ (ensureDirAt t p
          = (t ++ [⟨p, true, Content.text "", 0o777⟩], none)
        ∧ pexists t p = false) := by
  by_cases hd : isDirAt t p = true
  · exact Or.inl ⟨ensure_of_isDir hd, hd⟩
  · have hd2 : isDirAt t p = false := by simpa using hd
    by_cases hx : pexists t p = true
    · exact Or.inr (Or.inl ⟨ensure_of_file hd2 hx, hd2, hx⟩)
    · exact Or.inr (Or.inr ⟨ensure_of_absent (by simpa using hx),
        by simpa using hx⟩)

theorem isDirAt_clean_root {t : FS} (h : isDirAt t [] = true) :
    isDirAt (clean_app t).fs [] = true := by
  rcases isDirAt_iff.mp h with ⟨e, he, hp, hd⟩
  exact isDirAt_iff.mpr ⟨e, clean_app_keeps_root he hp, hp, hd⟩

theorem root_dir_metaStep1 {t : FS} (h : isDirAt t [] = true) :
    isDirAt (metaStep1 t).1 [] = true := by
  rcases metaStep1_cases t with ⟨he, _⟩ | ⟨he, _⟩ | ⟨he, _, _⟩
  · rw [he]; exact h
  · rw [he]; exact h
  · rw [he]
    show isDirAt (unlink t localMetaP) [] = true
    rw [isDirAt_unlink_other (by decide)]
    exact h

theorem root_dir_metaStep2 {t : FS} (h : isDirAt t [] = true) :
    isDirAt (metaStep2 t).1 [] = true := by
  rw [metaStep2_eq_ok (ensure_of_isDir h)]
  rcases ensureDir_cases t metadataP with ⟨he, _⟩ | ⟨he, _, _⟩ | ⟨he, _⟩
  · rw [he]; exact h
  · rw [he]; exact h
  · rw [he]
    show isDirAt (t ++ _) [] = true
    rw [isDirAt_append, h]
    rfl

theorem root_dir_metaStep3 {t : FS} (h : isDirAt t [] = true) :
    isDirAt (metaStep3 t).1 [] = true := by
  by_cases hd : isDirAt t defaultMetaP = true
  · rw [metaStep3_eq_dir hd]; exact h
  · rw [metaStep3_eq_write (by simpa using hd)]
    show isDirAt (chmodAt _ _ _) [] = true
    rw [isDirAt_chmod, isDirAt_write]
    exact h

theorem root_dir_fix_meta {t : FS} (h : isDirAt t [] = true) :
    isDirAt (fix_meta_files t).1 [] = true :=
  @fix_meta_pres (fun u => isDirAt u [] = true)
    (fun _ => root_dir_metaStep1) (fun _ => root_dir_metaStep2)
    (fun _ => root_dir_metaStep3) t h

theorem policyMode_eq_claimMode (e : Entry) : policyMode e = claimMode e := by
  unfold policyMode claimMode dirPerms execPerms filePerms
  by_cases hd : e.isDir = true
  · rw [if_pos hd, if_pos hd]
  · rw [if_neg hd, if_neg hd]
    by_cases hm : pySuffix (entryName e) ∈ execFiles
    · rw [if_pos hm, if_pos (by simpa [execFiles] using hm)]
    · rw [if_neg hm, if_neg (by simpa [execFiles] using hm)]

/-- C2: when the application root is a directory, every entry of the tree
the pipeline leaves behind carries exactly the policy mode: rwxr-xr-x for
directories and for files with suffix .py or .sh, rw-r--r-- for every
other file. -/
theorem c2_permission_policy (w : World) (e : Entry)
    (hroot : isDirAt w.tree [] = true)
    (he : e ∈ (prepare_app w).tree) : e.mode = claimMode e := by
  rw [prepare_app_tree] at he
  unfold treePipe at he
  have h0 : isDirAt (clean_app w.tree).fs [] = true := isDirAt_clean_root hroot
  have h1 : isDirAt (fix_app_conf (clean_app w.tree).fs).1 [] = true := by
    rw [isDirAt_fix_app_conf]; exact h0
  have h2 : isDirAt
      (fix_meta_files (fix_app_conf (clean_app w.tree).fs).1).1 [] = true :=
    root_dir_fix_meta h1
  rw [set_permissions_eq_dir h2] at he
  rcases List.mem_map.mp he with ⟨e0, he0, rfl⟩
  show policyMode e0 = claimMode { e0 with mode := policyMode e0 }
  rw [show claimMode { e0 with mode := policyMode e0 } = claimMode e0
    from rfl]
  exact policyMode_eq_claimMode e0

theorem c2_witness :
    (⟨[], true, Content.text "", 0o755⟩ : Entry).mode
      = claimMode ⟨[], true, Content.text "", 0o755⟩ :=
  c2_permission_policy
    ⟨["tmp"], "app1",
      [⟨[], true, Content.text "", 0o700⟩,
       ⟨["bin"], true, Content.text "", 0o700⟩,
       ⟨["bin", "run.py"], false, Content.text "code", 0o600⟩],
      ["home"], none⟩
    ⟨[], true, Content.text "", 0o755⟩ (by decide) (by decide)

/-! Shapes of the metadata paths and the canonical success run of
fix_meta_files. -/

theorem pexists_false_of_subset {t t' : FS} {q : List String}
    (hsub : ∀ e ∈ t', e ∈ t) (h : pexists t q = false) :
    pexists t' q = false := by
  cases hx : pexists t' q
  · rfl
  · rcases pexists_iff.mp hx with ⟨e, he, hp⟩
    exact absurd (pexists_iff.mpr ⟨e, hsub e he, hp⟩) (by simp [h])

theorem isDirAt_false_of_subset {t t' : FS} {q : List String}
    (hsub : ∀ e ∈ t', e ∈ t) (h : isDirAt t q = false) :
    isDirAt t' q = false := by
  cases hx : isDirAt t' q
  · rfl
  · rcases isDirAt_iff.mp hx with ⟨e, he, hp, hd⟩
    exact absurd (isDirAt_iff.mpr ⟨e, hsub e he, hp, hd⟩) (by simp [h])

theorem isDirAt_false_of_absent {t : FS} {q : List String}
    (h : pexists t q = false) : isDirAt t q = false := by
  cases hx : isDirAt t q
  · rfl
  · exact absurd (pexists_of_isDirAt hx) (by simp [h])

theorem isFileAt_of_allAt {t : FS} {q : List String}
    (hx : pexists t q = true)
    (h : AllAt t q (fun e => e.isDir = false)) : isFileAt t q = true := by
  rcases pexists_iff.mp hx with ⟨e, he, hp⟩
  exact isFileAt_iff.mpr ⟨e, he, hp, h e he hp⟩

theorem shape_neg_clean {t : FS} {q : List String}
    (h : pexists t q = false ∨ isDirAt t q = false) :
    pexists (clean_app t).fs q = false
      ∨ isDirAt (clean_app t).fs q = false := by
  rcases h with h | h
  · exact Or.inl
      (pexists_false_of_subset (fun e he => clean_app_subset he) h)
  · exact Or.inr
      (isDirAt_false_of_subset (fun e he => clean_app_subset he) h)

theorem shape_pos_clean {t : FS} {q : List String}
    (h : pexists t q = false ∨ isDirAt t q = true) :
    pexists (clean_app t).fs q = false
      ∨ isDirAt (clean_app t).fs q = true := by
  rcases h with h | h
  · exact Or.inl
      (pexists_false_of_subset (fun e he => clean_app_subset he) h)
  · rcases isDirAt_iff.mp h with ⟨e, he, hp, hd⟩
    rcases uniformKeep_clean t q with hall | habs
    · exact Or.inr (isDirAt_iff.mpr ⟨e, hall e he hp, hp, hd⟩)
    · exact Or.inl habs

theorem pexists_single {e : Entry} {q : List String} :
    pexists [e] q = (e.path == q) := by
  simp [pexists]

theorem isDirAt_single {e : Entry} {q : List String} :
    isDirAt [e] q = ((e.path == q) && e.isDir) := by
  simp [isDirAt]

theorem metaStep1_success {u : FS}
    (s1 : pexists u localMetaP = false ∨ isDirAt u localMetaP = false) :
    ∃ u1, metaStep1 u = (u1, none)
      ∧ pexists u1 localMetaP = false
      ∧ ∀ q, q ≠ localMetaP →
          pexists u1 q = pexists u q ∧ isDirAt u1 q = isDirAt u q := by
  by_cases hx : pexists u localMetaP = true
  · have hd : isDirAt u localMetaP = false := by
      rcases s1 with h | h
      · rw [h] at hx; cases hx
      · exact h
    refine ⟨unlink u localMetaP, metaStep1_eq_file hx hd,
      pexists_unlink_self, fun q hq => ?_⟩
    exact ⟨pexists_unlink_other hq, isDirAt_unlink_other hq⟩
  · exact ⟨u, metaStep1_eq_absent (by simpa using hx), by simpa using hx,
      fun q _ => ⟨rfl, rfl⟩⟩

theorem metaStep2_success {u1 : FS}
    (s2 : pexists u1 [] = false ∨ isDirAt u1 [] = true)
    (s3 : pexists u1 metadataP = false ∨ isDirAt u1 metadataP = true) :
    ∃ u3, metaStep2 u1 = (u3, none)
      ∧ isDirAt u3 [] = true
      ∧ isDirAt u3 metadataP = true
      ∧ ∀ q, q ≠ [] → q ≠ metadataP →
          pexists u3 q = pexists u1 q ∧ isDirAt u3 q = isDirAt u1 q := by
  have hstep : ∃ u2, ensureDirAt u1 [] = (u2, none)
      ∧ isDirAt u2 [] = true
      ∧ (pexists u2 metadataP = pexists u1 metadataP
          ∧ isDirAt u2 metadataP = isDirAt u1 metadataP)
      ∧ ∀ q, q ≠ [] →
          pexists u2 q = pexists u1 q ∧ isDirAt u2 q = isDirAt u1 q := by
    rcases s2 with h | h
    · refine ⟨u1 ++ [⟨[], true, Content.text "", 0o777⟩],
        ensure_of_absent h, ?_, ?_, ?_⟩
      · rw [isDirAt_append, isDirAt_false_of_absent h]
        rfl
      · constructor
        · rw [pexists_append, pexists_single]
          simp [metadataP]
        · rw [isDirAt_append, isDirAt_single]
          simp [metadataP]
      · intro q hq
        have hne : (([] : List String) == q) = false :=
          beq_eq_false_iff_ne.mpr (Ne.symm hq)
        constructor
        · rw [pexists_append, pexists_single, hne]
          simp
        · rw [isDirAt_append, isDirAt_single, hne]
          simp
    · exact ⟨u1, ensure_of_isDir h, h, ⟨rfl, rfl⟩, fun q _ => ⟨rfl, rfl⟩⟩
  rcases hstep with ⟨u2, hE, hroot2, hmd2, hother2⟩
  have s3b : pexists u2 metadataP = false ∨ isDirAt u2 metadataP = true := by
    rw [hmd2.1, hmd2.2]; exact s3
  rcases s3b with h | h
  · refine ⟨u2 ++ [⟨metadataP, true, Content.text "", 0o777⟩],
      by rw [metaStep2_eq_ok hE]; exact ensure_of_absent h, ?_, ?_, ?_⟩
    · rw [isDirAt_append, hroot2]; rfl
    · rw [isDirAt_append, isDirAt_false_of_absent h, isDirAt_single]
      simp
    · intro q hq1 hq2
      have hne : (metadataP == q) = false := by
        simpa using fun h2 => hq2 h2.symm
      constructor
      · rw [pexists_append, pexists_single, hne]
        simp [(hother2 q hq1).1]
      · rw [isDirAt_append, isDirAt_single, hne]
        simp [(hother2 q hq1).2]
  · refine ⟨u2, by rw [metaStep2_eq_ok hE]; exact ensure_of_isDir h,
      hroot2, h, fun q hq1 _ => hother2 q hq1⟩

theorem metaStep3_success {u3 : FS} (hdm : isDirAt u3 defaultMetaP = false) :
    ∃ u4, metaStep3 u3 = (u4, none)
      ∧ pexists u4 defaultMetaP = true
      ∧ AllAt u4 defaultMetaP
          (fun e => e.isDir = false
            ∧ e.content = Content.text defaultMetaContent
            ∧ e.mode = filePerms)
      ∧ ∀ q, q ≠ defaultMetaP →
          pexists u4 q = pexists u3 q ∧ isDirAt u4 q = isDirAt u3 q := by
  refine ⟨_, metaStep3_eq_write hdm, ?_, ?_, ?_⟩
  · rw [pexists_chmod, pexists_write_self]
  · have hc : AllAt
        (chmodAt (writeFileAt u3 defaultMetaP
          (Content.text defaultMetaContent)) defaultMetaP filePerms)
        defaultMetaP (fun e => e.content = Content.text defaultMetaContent)
        := by
      refine allAt_chmod (fun e hp he => he) allAt_write_self
    have hf : AllAt
        (chmodAt (writeFileAt u3 defaultMetaP
          (Content.text defaultMetaContent)) defaultMetaP filePerms)
        defaultMetaP (fun e => e.isDir = false) := by
      refine allAt_chmod (fun e hp he => he) (allAt_write_self_file hdm)
    have hm : AllAt
        (chmodAt (writeFileAt u3 defaultMetaP
          (Content.text defaultMetaContent)) defaultMetaP filePerms)
        defaultMetaP (fun e => e.mode = filePerms) := allAt_chmod_self
    exact fun e he hp => ⟨hf e he hp, hc e he hp, hm e he hp⟩
  · intro q hq
    constructor
    · rw [pexists_chmod, pexists_write_other hq]
    · rw [isDirAt_chmod, isDirAt_write]

/-- The canonical outcome of fix_meta_files when the metadata paths have
the expected kinds (or are absent). -/
theorem meta_success {u : FS}
    (s1 : pexists u localMetaP = false ∨ isDirAt u localMetaP = false)
    (s2 : pexists u [] = false ∨ isDirAt u [] = true)
    (s3 : pexists u metadataP = false ∨ isDirAt u metadataP = true)
    (s4 : pexists u defaultMetaP = false ∨ isDirAt u defaultMetaP = false) :
    (fix_meta_files u).2 = none
    ∧ pexists (fix_meta_files u).1 localMetaP = false
    ∧ isDirAt (fix_meta_files u).1 [] = true
    ∧ isDirAt (fix_meta_files u).1 metadataP = true
    ∧ pexists (fix_meta_files u).1 defaultMetaP = true
    ∧ AllAt (fix_meta_files u).1 defaultMetaP
        (fun e => e.isDir = false
          ∧ e.content = Content.text defaultMetaContent
          ∧ e.mode = filePerms) := by
  rcases metaStep1_success s1 with ⟨u1, hE1, hlm1, hoth1⟩
  have s2b : pexists u1 [] = false ∨ isDirAt u1 [] = true := by
    rw [(hoth1 [] (by decide)).1, (hoth1 [] (by decide)).2]; exact s2
  have s3b : pexists u1 metadataP = false
      ∨ isDirAt u1 metadataP = true := by
    rw [(hoth1 metadataP (by decide)).1, (hoth1 metadataP (by decide)).2]
    exact s3
  rcases metaStep2_success s2b s3b with ⟨u3, hE2, hroot3, hmd3, hoth2⟩
  have hdm3 : isDirAt u3 defaultMetaP = false := by
    rw [(hoth2 defaultMetaP (by decide) (by decide)).2,
      (hoth1 defaultMetaP (by decide)).2]
    rcases s4 with h | h
    · exact isDirAt_false_of_absent h
    · exact h
  rcases metaStep3_success hdm3 with ⟨u4, hE3, hdx4, hall4, hoth3⟩
  have hfix : fix_meta_files u = (u4, none) := by
    rw [fix_meta_eq_ok hE1 hE2, hE3]
  rw [hfix]
  refine ⟨rfl, ?_, ?_, ?_, hdx4, hall4⟩
  · rw [(hoth3 localMetaP (by decide)).1,
      (hoth2 localMetaP (by decide) (by decide)).1]
    exact hlm1
  · rw [(hoth3 [] (by decide)).2]
    exact hroot3
  · rw [(hoth3 metadataP (by decide)).2]
    exact hmd3

theorem policyMode_defaultMeta (e : Entry) (hp : e.path = defaultMetaP)
    (hd : e.isDir = false) : policyMode e = filePerms := by
  unfold policyMode
  rw [if_neg (by simp [hd])]
  have hn : entryName e = "default.meta" := by
    rw [entryName, hp]; rfl
  rw [if_neg (by rw [hn]; decide)]

/-- Transport of the canonical metadata facts through set_permissions. -/
theorem canon_perms {t : FS} (hroot : isDirAt t [] = true)
    (hlm : pexists t localMetaP = false)
    (hdx : pexists t defaultMetaP = true)
    (hall : AllAt t defaultMetaP
      (fun e => e.isDir = false
        ∧ e.content = Content.text defaultMetaContent
        ∧ e.mode = filePerms)) :
    pexists (set_permissions t).1 localMetaP = false
    ∧ pexists (set_permissions t).1 defaultMetaP = true
    ∧ AllAt (set_permissions t).1 defaultMetaP
        (fun e => e.isDir = false
          ∧ e.content = Content.text defaultMetaContent
          ∧ e.mode = filePerms) := by
  rw [set_permissions_eq_dir hroot]
  refine ⟨?_, ?_, ?_⟩
  · rw [@pexists_map t localMetaP
      (fun e => { e with mode := policyMode e }) (fun e => rfl)]
    exact hlm
  · rw [@pexists_map t defaultMetaP
      (fun e => { e with mode := policyMode e }) (fun e => rfl)]
    exact hdx
  · refine @allAt_map t defaultMetaP
      (fun e => { e with mode := policyMode e }) _ (fun e => rfl)
      (fun e hp he => ?_) hall
    exact ⟨he.1, he.2.1, policyMode_defaultMeta e hp he.1⟩

/-- C3: whatever the prior state of the metadata paths (absent, or of the
kind the code expects: metadata a directory, the meta files plain files),
after the pipeline metadata/default.meta is a file whose content is
exactly the canonical document, and metadata/local.meta does not exist. -/
theorem c3_meta_canonical (w : World)
    (h1 : pexists w.tree localMetaP = false
      ∨ isDirAt w.tree localMetaP = false)
    (h2 : pexists w.tree [] = false ∨ isDirAt w.tree [] = true)
    (h3 : pexists w.tree metadataP = false
      ∨ isDirAt w.tree metadataP = true)
    (h4 : pexists w.tree defaultMetaP = false
      ∨ isDirAt w.tree defaultMetaP = false) :
    isFileAt (prepare_app w).tree defaultMetaP = true
    ∧ contentAt (prepare_app w).tree defaultMetaP
        = some (Content.text defaultMetaContent)
    ∧ pexists (prepare_app w).tree localMetaP = false := by
  rw [prepare_app_tree]
  unfold treePipe
  have c1s := shape_neg_clean h1
  have c2s := shape_pos_clean h2
  have c3s := shape_pos_clean h3
  have c4s := shape_neg_clean h4
  have f1s : pexists (fix_app_conf (clean_app w.tree).fs).1 localMetaP
        = false
      ∨ isDirAt (fix_app_conf (clean_app w.tree).fs).1 localMetaP
        = false := by
    rw [pexists_fix_app_conf, isDirAt_fix_app_conf]; exact c1s
  have f2s : pexists (fix_app_conf (clean_app w.tree).fs).1 [] = false
      ∨ isDirAt (fix_app_conf (clean_app w.tree).fs).1 [] = true := by
    rw [pexists_fix_app_conf, isDirAt_fix_app_conf]; exact c2s
  have f3s : pexists (fix_app_conf (clean_app w.tree).fs).1 metadataP
        = false
      ∨ isDirAt (fix_app_conf (clean_app w.tree).fs).1 metadataP
        = true := by
    rw [pexists_fix_app_conf, isDirAt_fix_app_conf]; exact c3s
  have f4s : pexists (fix_app_conf (clean_app w.tree).fs).1 defaultMetaP
        = false
      ∨ isDirAt (fix_app_conf (clean_app w.tree).fs).1 defaultMetaP
        = false := by
    rw [pexists_fix_app_conf, isDirAt_fix_app_conf]; exact c4s
  rcases meta_success f1s f2s f3s f4s with
    ⟨_, hlm, hroot, _, hdx, hall⟩
  rcases canon_perms hroot hlm hdx hall with ⟨plm, pdx, pall⟩
  refine ⟨?_, ?_, plm⟩
  · exact isFileAt_of_allAt pdx (fun e he hp => (pall e he hp).1)
  · exact contentAt_of_allAt pdx (fun e he hp => (pall e he hp).2.1)

theorem c3_witness :
    isFileAt (prepare_app ⟨["tmp"], "app1",
        [⟨[], true, Content.text "", 0o700⟩,
         ⟨["metadata"], true, Content.text "", 0o700⟩,
         ⟨["metadata", "local.meta"], false, Content.text "old", 0o600⟩,
         ⟨["metadata", "default.meta"], false, Content.text "old", 0o600⟩],
        ["home"], none⟩).tree defaultMetaP = true
    ∧ contentAt (prepare_app ⟨["tmp"], "app1",
        [⟨[], true, Content.text "", 0o700⟩,
         ⟨["metadata"], true, Content.text "", 0o700⟩,
         ⟨["metadata", "local.meta"], false, Content.text "old", 0o600⟩,
         ⟨["metadata", "default.meta"], false, Content.text "old", 0o600⟩],
        ["home"], none⟩).tree defaultMetaP
        = some (Content.text defaultMetaContent)
    ∧ pexists (prepare_app ⟨["tmp"], "app1",
        [⟨[], true, Content.text "", 0o700⟩,
         ⟨["metadata"], true, Content.text "", 0o700⟩,
         ⟨["metadata", "local.meta"], false, Content.text "old", 0o600⟩,
         ⟨["metadata", "default.meta"], false, Content.text "old", 0o600⟩],
        ["home"], none⟩).tree localMetaP = false :=
  c3_meta_canonical _ (by decide) (by decide) (by decide) (by decide)

/-! Idempotence machinery: observables through set_permissions and
fix_meta_files, and fixed-point shapes of the rewriting steps. -/

theorem list_map_congr {α β : Type} {l : List α} {f g : α → β}
    (h : ∀ a ∈ l, f a = g a) : l.map f = l.map g := by
  induction l with
  | nil => rfl
  | cons a as ih =>
    simp only [List.map_cons, h a (List.mem_cons_self a as)]
    rw [ih (fun b hb => h b (List.mem_cons_of_mem a hb))]

theorem allAt_chmod_other {fs : FS} {p q : List String} {m : Nat}
    {φ : Entry → Prop} (hq : q ≠ p) (h : AllAt fs q φ) :
    AllAt (chmodAt fs p m) q φ := by
  refine allAt_map (chmod_path p m) (fun e hp he => ?_) h
  have : e.path ≠ p := by rw [hp]; exact hq
  simp [this, he]

theorem pexists_perms (u : FS) (q : List String) :
    pexists (set_permissions u).1 q = pexists u q := by
  by_cases hd : isDirAt u [] = true
  · rw [set_permissions_eq_dir hd]
    exact @pexists_map u q (fun e => { e with mode := policyMode e })
      (fun e => rfl)
  · by_cases hx : pexists u [] = true
    · rw [set_permissions_eq_file (by simpa using hd) hx]
      exact pexists_chmod
    · rw [set_permissions_eq_absent (by simpa using hd) (by simpa using hx)]

theorem isDirAt_perms (u : FS) (q : List String) :
    isDirAt (set_permissions u).1 q = isDirAt u q := by
  by_cases hd : isDirAt u [] = true
  · rw [set_permissions_eq_dir hd]
    exact @isDirAt_map u q (fun e => { e with mode := policyMode e })
      (fun e => rfl) (fun e => rfl)
  · by_cases hx : pexists u [] = true
    · rw [set_permissions_eq_file (by simpa using hd) hx]
      exact isDirAt_chmod
    · rw [set_permissions_eq_absent (by simpa using hd) (by simpa using hx)]

theorem contentAt_perms (u : FS) (q : List String) :
    contentAt (set_permissions u).1 q = contentAt u q := by
  by_cases hd : isDirAt u [] = true
  · rw [set_permissions_eq_dir hd]
    exact @contentAt_map u q (fun e => { e with mode := policyMode e })
      (fun e => rfl) (fun e => rfl)
  · by_cases hx : pexists u [] = true
    · rw [set_permissions_eq_file (by simpa using hd) hx]
      exact contentAt_chmod
    · rw [set_permissions_eq_absent (by simpa using hd) (by simpa using hx)]

theorem set_permissions_idem (u : FS) :
    (set_permissions (set_permissions u).1).1 = (set_permissions u).1 := by
  by_cases hd : isDirAt u [] = true
  · rw [set_permissions_eq_dir hd]
    have hd2 : isDirAt
        (u.map (fun e => { e with mode := policyMode e })) [] = true := by
      rw [@isDirAt_map u [] (fun e => { e with mode := policyMode e })
        (fun e => rfl) (fun e => rfl)]
      exact hd
    rw [set_permissions_eq_dir hd2, List.map_map]
    exact list_map_congr (fun e he => rfl)
  · by_cases hx : pexists u [] = true
    · rw [set_permissions_eq_file (by simpa using hd) hx]
      have hd2 : isDirAt (chmodAt u [] dirPerms) [] = false := by
        rw [isDirAt_chmod]; simpa using hd
      have hx2 : pexists (chmodAt u [] dirPerms) [] = true := by
        rw [pexists_chmod]; exact hx
      rw [set_permissions_eq_file hd2 hx2]
      exact chmod_self allAt_chmod_self
    · rw [@set_permissions_eq_absent u (by simpa using hd)
        (by simpa using hx)]
      show (set_permissions u).1 = u
      rw [@set_permissions_eq_absent u (by simpa using hd)
        (by simpa using hx)]

/-! Observables at paths the metadata step does not touch. -/

theorem ensure_other {v : FS} {p q : List String} (hq : q ≠ p) :
    pexists (ensureDirAt v p).1 q = pexists v q
    ∧ isDirAt (ensureDirAt v p).1 q = isDirAt v q
    ∧ contentAt (ensureDirAt v p).1 q = contentAt v q
    ∧ ∀ φ : Entry → Prop, AllAt v q φ → AllAt (ensureDirAt v p).1 q φ := by
  rcases ensureDir_cases v p with ⟨he, _⟩ | ⟨he, _, _⟩ | ⟨he, _⟩
  · rw [he]; exact ⟨rfl, rfl, rfl, fun φ h => h⟩
  · rw [he]; exact ⟨rfl, rfl, rfl, fun φ h => h⟩
  · rw [he]
    have hne : (p == q) = false := beq_eq_false_iff_ne.mpr (Ne.symm hq)
    refine ⟨?_, ?_, ?_, ?_⟩
    · rw [pexists_append, pexists_single, hne]; simp
    · rw [isDirAt_append, isDirAt_single, hne]; simp
    · cases hx : pexists v q
      · rw [contentAt_append_of_absent hx, contentAt_none_of_absent hx]
        simp [contentAt, hq.symm]
      · exact contentAt_append_of_present hx
    · intro φ h
      refine allAt_append h (fun e he2 hp => ?_)
      rcases List.mem_singleton.mp he2 with rfl
      exact absurd hp hq.symm

theorem metaStep1_other {v : FS} {q : List String} (hq : q ≠ localMetaP) :
    pexists (metaStep1 v).1 q = pexists v q
    ∧ isDirAt (metaStep1 v).1 q = isDirAt v q
    ∧ contentAt (metaStep1 v).1 q = contentAt v q
    ∧ ∀ φ : Entry → Prop, AllAt v q φ → AllAt (metaStep1 v).1 q φ := by
  rcases metaStep1_cases v with ⟨he, _⟩ | ⟨he, _⟩ | ⟨he, _, _⟩
  · rw [he]; exact ⟨rfl, rfl, rfl, fun φ h => h⟩
  · rw [he]; exact ⟨rfl, rfl, rfl, fun φ h => h⟩
  · rw [he]
    exact ⟨pexists_unlink_other hq, isDirAt_unlink_other hq,
      contentAt_unlink_other hq, fun φ h => allAt_filter h⟩

theorem metaStep2_other {v : FS} {q : List String} (h2 : q ≠ [])
    (h3 : q ≠ metadataP) :
    pexists (metaStep2 v).1 q = pexists v q
    ∧ isDirAt (metaStep2 v).1 q = isDirAt v q
    ∧ contentAt (metaStep2 v).1 q = contentAt v q
    ∧ ∀ φ : Entry → Prop, AllAt v q φ → AllAt (metaStep2 v).1 q φ := by
  rcases hE : ensureDirAt v [] with ⟨v2, e2⟩
  have hobs : pexists v2 q = pexists v q ∧ isDirAt v2 q = isDirAt v q
      ∧ contentAt v2 q = contentAt v q
      ∧ ∀ φ : Entry → Prop, AllAt v q φ → AllAt v2 q φ := by
    have := @ensure_other v [] q h2
    rw [hE] at this
    exact this
  cases e2 with
  | some u =>
    cases u
    rw [metaStep2_eq_err hE]
    exact hobs
  | none =>
    rw [metaStep2_eq_ok hE]
    have h4 := @ensure_other v2 metadataP q h3
    exact ⟨h4.1.trans hobs.1, h4.2.1.trans hobs.2.1,
      h4.2.2.1.trans hobs.2.2.1,
      fun φ h => h4.2.2.2 φ (hobs.2.2.2 φ h)⟩

theorem metaStep3_other {v : FS} {q : List String}
    (hq : q ≠ defaultMetaP) :
    pexists (metaStep3 v).1 q = pexists v q
    ∧ isDirAt (metaStep3 v).1 q = isDirAt v q
    ∧ contentAt (metaStep3 v).1 q = contentAt v q
    ∧ ∀ φ : Entry → Prop, AllAt v q φ → AllAt (metaStep3 v).1 q φ := by
  by_cases hd : isDirAt v defaultMetaP = true
  · rw [metaStep3_eq_dir hd]; exact ⟨rfl, rfl, rfl, fun φ h => h⟩
  · rw [metaStep3_eq_write (by simpa using hd)]
    refine ⟨?_, ?_, ?_, ?_⟩
    · show pexists (chmodAt _ _ _) q = _
      rw [pexists_chmod, pexists_write_other hq]
    · show isDirAt (chmodAt _ _ _) q = _
      rw [isDirAt_chmod, isDirAt_write]
    · show contentAt (chmodAt _ _ _) q = _
      rw [contentAt_chmod, contentAt_write_other hq]
    · intro φ h
      exact allAt_chmod_other hq (allAt_write_other hq h)

theorem fix_meta_other {u : FS} {q : List String} (h1 : q ≠ localMetaP)
    (h2 : q ≠ []) (h3 : q ≠ metadataP) (h4 : q ≠ defaultMetaP) :
    pexists (fix_meta_files u).1 q = pexists u q
    ∧ isDirAt (fix_meta_files u).1 q = isDirAt u q
    ∧ contentAt (fix_meta_files u).1 q = contentAt u q := by
  have := @fix_meta_pres
    (fun v => pexists v q = pexists u q ∧ isDirAt v q = isDirAt u q
      ∧ contentAt v q = contentAt u q)
    (fun v hv => by
      rcases @metaStep1_other v q h1 with ⟨a, b, c, _⟩
      exact ⟨a.trans hv.1, b.trans hv.2.1, c.trans hv.2.2⟩)
    (fun v hv => by
      rcases @metaStep2_other v q h2 h3 with ⟨a, b, c, _⟩
      exact ⟨a.trans hv.1, b.trans hv.2.1, c.trans hv.2.2⟩)
    (fun v hv => by
      rcases @metaStep3_other v q h4 with ⟨a, b, c, _⟩
      exact ⟨a.trans hv.1, b.trans hv.2.1, c.trans hv.2.2⟩)
    u ⟨rfl, rfl, rfl⟩
  exact this

theorem fix_meta_allAt_other {u : FS} {q : List String}
    {φ : Entry → Prop} (h1 : q ≠ localMetaP) (h2 : q ≠ [])
    (h3 : q ≠ metadataP) (h4 : q ≠ defaultMetaP) (h : AllAt u q φ) :
    AllAt (fix_meta_files u).1 q φ := by
  refine @fix_meta_pres (fun v => AllAt v q φ) ?_ ?_ ?_ u h
  · exact fun v hv => (@metaStep1_other v q h1).2.2.2 φ hv
  · exact fun v hv => (@metaStep2_other v q h2 h3).2.2.2 φ hv
  · exact fun v hv => (@metaStep3_other v q h4).2.2.2 φ hv

/-! The fixed-point shape left behind by fix_app_conf. -/

/-- What fix_app_conf leaves behind, preserved by the later steps: either
default/app.conf is absent, a directory, unparseable, or a checksum-free
document written with file permissions. -/
def ConfShape (m : FS) : Prop :=
  pexists m appConfP = false
  ∨ isDirAt m appConfP = true
  ∨ (∃ s, contentAt m appConfP = some (Content.text s)
      ∧ isDirAt m appConfP = false)
  ∨ (∃ d, contentAt m appConfP = some (Content.ini d)
      ∧ removeChecksum d = d
      ∧ AllAt m appConfP
          (fun e => e.isDir = false ∧ e.content = Content.ini d
            ∧ e.mode = filePerms))

theorem policyMode_appConf (e : Entry) (hp : e.path = appConfP)
    (hd : e.isDir = false) : policyMode e = filePerms := by
  unfold policyMode
  rw [if_neg (by simp [hd])]
  have hn : entryName e = "app.conf" := by
    rw [entryName, hp]; rfl
  rw [if_neg (by rw [hn]; decide)]

theorem fix_app_conf_cases4 (t : FS) :
    (fix_app_conf t = (t, none) ∧ pexists t appConfP = false)
    ∨ (fix_app_conf t = (t, some ()) ∧ isDirAt t appConfP = true)
    ∨ (∃ s, fix_app_conf t = (t, some ())
        ∧ contentAt t appConfP = some (Content.text s)
        ∧ isDirAt t appConfP = false)
    ∨ (∃ d, fix_app_conf t
          = (chmodAt
              (writeFileAt t appConfP (Content.ini (removeChecksum d)))
              appConfP filePerms, none)
        ∧ contentAt t appConfP = some (Content.ini d)
        ∧ isDirAt t appConfP = false) := by
  by_cases hex : pexists t appConfP = true
  · by_cases hd : isDirAt t appConfP = true
    · exact Or.inr (Or.inl ⟨fix_app_conf_eq_dir hd, hd⟩)
    · have hd2 : isDirAt t appConfP = false := by simpa using hd
      rcases contentAt_isSome hex with ⟨c, hc⟩
      cases c with
      | text s =>
        exact Or.inr (Or.inr (Or.inl
          ⟨s, fix_app_conf_eq_text hc hd2, hc, hd2⟩))
      | ini d =>
        exact Or.inr (Or.inr (Or.inr
          ⟨d, fix_app_conf_eq_ini hc hd2, hc, hd2⟩))
  · exact Or.inl ⟨fix_app_conf_eq_absent (by simpa using hex),
      by simpa using hex⟩

theorem conf_shape (t0 : FS) : ConfShape (fix_app_conf t0).1 := by
  rcases fix_app_conf_cases4 t0 with ⟨he, hx⟩ | ⟨he, hd⟩
    | ⟨s, he, hc, hd⟩ | ⟨d, he, hc, hd⟩
  · rw [he]; exact Or.inl hx
  · rw [he]; exact Or.inr (Or.inl hd)
  · rw [he]; exact Or.inr (Or.inr (Or.inl ⟨s, hc, hd⟩))
  · rw [he]
    refine Or.inr (Or.inr (Or.inr ⟨removeChecksum d, ?_,
      removeChecksum_idem d, ?_⟩))
    · show contentAt (chmodAt _ _ _) appConfP = _
      rw [contentAt_chmod, contentAt_write_self]
    · have hc2 : AllAt
          (chmodAt (writeFileAt t0 appConfP
            (Content.ini (removeChecksum d))) appConfP filePerms)
          appConfP
          (fun e => e.content = Content.ini (removeChecksum d)) :=
        allAt_chmod (fun e hp he => he) allAt_write_self
      have hf2 : AllAt
          (chmodAt (writeFileAt t0 appConfP
            (Content.ini (removeChecksum d))) appConfP filePerms)
          appConfP (fun e => e.isDir = false) :=
        allAt_chmod (fun e hp he => he) (allAt_write_self_file hd)
      have hm2 : AllAt
          (chmodAt (writeFileAt t0 appConfP
            (Content.ini (removeChecksum d))) appConfP filePerms)
          appConfP (fun e => e.mode = filePerms) := allAt_chmod_self
      exact fun e he hp => ⟨hf2 e he hp, hc2 e he hp, hm2 e he hp⟩

theorem confShape_meta {m : FS} (h : ConfShape m) :
    ConfShape (fix_meta_files m).1 := by
  have hobs := @fix_meta_other m appConfP (by decide) (by decide)
    (by decide) (by decide)
  rcases h with h | h | ⟨s, hc, hd⟩ | ⟨d, hc, hrc, hall⟩
  · exact Or.inl (hobs.1.trans h)
  · exact Or.inr (Or.inl (hobs.2.1.trans h))
  · exact Or.inr (Or.inr (Or.inl
      ⟨s, hobs.2.2.trans hc, hobs.2.1.trans hd⟩))
  · exact Or.inr (Or.inr (Or.inr
      ⟨d, hobs.2.2.trans hc, hrc,
        @fix_meta_allAt_other m appConfP _ (by decide) (by decide)
          (by decide) (by decide) hall⟩))

theorem allAt_appConf_perms {m : FS} {d : ConfigDoc}
    (h : AllAt m appConfP
      (fun e => e.isDir = false ∧ e.content = Content.ini d
        ∧ e.mode = filePerms)) :
    AllAt (set_permissions m).1 appConfP
      (fun e => e.isDir = false ∧ e.content = Content.ini d
        ∧ e.mode = filePerms) := by
  by_cases hroot : isDirAt m [] = true
  · rw [set_permissions_eq_dir hroot]
    refine @allAt_map m appConfP
      (fun e => { e with mode := policyMode e }) _ (fun e => rfl)
      (fun e hp he => ?_) h
    exact ⟨he.1, he.2.1, policyMode_appConf e hp he.1⟩
  · by_cases hx : pexists m [] = true
    · rw [set_permissions_eq_file (by simpa using hroot) hx]
      exact allAt_chmod_other (by decide) h
    · rw [set_permissions_eq_absent (by simpa using hroot)
        (by simpa using hx)]
      exact h

theorem confShape_perms {m : FS} (h : ConfShape m) :
    ConfShape (set_permissions m).1 := by
  rcases h with h | h | ⟨s, hc, hd⟩ | ⟨d, hc, hrc, hall⟩
  · exact Or.inl ((pexists_perms m appConfP).trans h)
  · exact Or.inr (Or.inl ((isDirAt_perms m appConfP).trans h))
  · exact Or.inr (Or.inr (Or.inl
      ⟨s, (contentAt_perms m appConfP).trans hc,
        (isDirAt_perms m appConfP).trans hd⟩))
  · exact Or.inr (Or.inr (Or.inr
      ⟨d, (contentAt_perms m appConfP).trans hc, hrc,
        allAt_appConf_perms hall⟩))

theorem fix_app_conf_fixed {v : FS} (h : ConfShape v) :
    (fix_app_conf v).1 = v := by
  rcases h with h | h | ⟨s, hc, hd⟩ | ⟨d, hc, hrc, hall⟩
  · rw [fix_app_conf_eq_absent h]
  · rw [fix_app_conf_eq_dir h]
  · rw [fix_app_conf_eq_text hc hd]
  · have hd : isDirAt v appConfP = false :=
      allAt_isDirAt_false (fun e he hp => (hall e he hp).1)
    rw [fix_app_conf_eq_ini hc hd]
    show chmodAt (writeFileAt v appConfP
      (Content.ini (removeChecksum d))) appConfP filePerms = v
    rw [hrc, write_self (pexists_of_contentAt hc)
      (fun e he hp => (hall e he hp).2.1)]
    exact chmod_self (fun e he hp => (hall e he hp).2.2)

/-! The fixed-point shape left behind by fix_meta_files. -/

/-- What fix_meta_files leaves behind (one case per exit point of the
step), preserved by set_permissions. -/
def MetaShape (m : FS) : Prop :=
  isDirAt m localMetaP = true
  ∨ (pexists m localMetaP = false ∧ isDirAt m [] = false
      ∧ pexists m [] = true)
  ∨ (pexists m localMetaP = false ∧ isDirAt m [] = true
      ∧ isDirAt m metadataP = false ∧ pexists m metadataP = true)
  ∨ (pexists m localMetaP = false ∧ isDirAt m [] = true
      ∧ isDirAt m metadataP = true ∧ isDirAt m defaultMetaP = true)
  ∨ (pexists m localMetaP = false ∧ isDirAt m [] = true
      ∧ isDirAt m metadataP = true ∧ pexists m defaultMetaP = true
      ∧ AllAt m defaultMetaP
          (fun e => e.isDir = false
            ∧ e.content = Content.text defaultMetaContent
            ∧ e.mode = filePerms))

theorem fix_meta_shape_from_step2 {u u1 u3 : FS}
    (hE1 : metaStep1 u = (u1, none)) (hE2 : metaStep2 u1 = (u3, none))
    (hlm3 : pexists u3 localMetaP = false)
    (hroot3 : isDirAt u3 [] = true)
    (hmd3 : isDirAt u3 metadataP = true) :
    MetaShape (fix_meta_files u).1 := by
  by_cases hdm : isDirAt u3 defaultMetaP = true
  · rw [fix_meta_eq_ok hE1 hE2, metaStep3_eq_dir hdm]
    exact Or.inr (Or.inr (Or.inr (Or.inl ⟨hlm3, hroot3, hmd3, hdm⟩)))
  · rcases metaStep3_success (by simpa using hdm) with
      ⟨u4, hE3, hdx4, hall4, hoth4⟩
    rw [fix_meta_eq_ok hE1 hE2, hE3]
    refine Or.inr (Or.inr (Or.inr (Or.inr ⟨?_, ?_, ?_, hdx4, hall4⟩)))
    · exact ((hoth4 localMetaP (by decide)).1).trans hlm3
    · exact ((hoth4 [] (by decide)).2).trans hroot3
    · exact ((hoth4 metadataP (by decide)).2).trans hmd3

theorem fix_meta_shape_from_ensureRoot {u u1 u2 : FS}
    (hE1 : metaStep1 u = (u1, none))
    (hE2a : ensureDirAt u1 [] = (u2, none))
    (hroot2 : isDirAt u2 [] = true)
    (hlm2 : pexists u2 localMetaP = false) :
    MetaShape (fix_meta_files u).1 := by
  rcases ensureDir_cases u2 metadataP with ⟨hEb, hmdb⟩
    | ⟨hEb, hdmb, hxmb⟩ | ⟨hEb, hxmb⟩
  · exact fix_meta_shape_from_step2 hE1
      (by rw [metaStep2_eq_ok hE2a]; exact hEb) hlm2 hroot2 hmdb
  · rw [fix_meta_eq_err2 hE1 (by rw [metaStep2_eq_ok hE2a]; exact hEb)]
    exact Or.inr (Or.inr (Or.inl ⟨hlm2, hroot2, hdmb, hxmb⟩))
  · refine fix_meta_shape_from_step2 hE1
      (by rw [metaStep2_eq_ok hE2a]; exact hEb) ?_ ?_ ?_
    · rw [pexists_append, pexists_single,
        show (metadataP == localMetaP) = false by decide]
      simp [hlm2]
    · rw [isDirAt_append, hroot2]
      rfl
    · rw [isDirAt_append, isDirAt_false_of_absent hxmb, isDirAt_single]
      simp

theorem fix_meta_shape_from_step1 {u u1 : FS}
    (hE1 : metaStep1 u = (u1, none))
    (hlm1 : pexists u1 localMetaP = false) :
    MetaShape (fix_meta_files u).1 := by
  rcases ensureDir_cases u1 [] with ⟨hEa, hroota⟩
    | ⟨hEa, hdra, hxra⟩ | ⟨hEa, hxra⟩
  · exact fix_meta_shape_from_ensureRoot hE1 hEa hroota hlm1
  · rw [fix_meta_eq_err2 hE1 (metaStep2_eq_err hEa)]
    exact Or.inr (Or.inl ⟨hlm1, hdra, hxra⟩)
  · refine fix_meta_shape_from_ensureRoot hE1 hEa ?_ ?_
    · rw [isDirAt_append, isDirAt_false_of_absent hxra]
      rfl
    · rw [pexists_append, pexists_single,
        show (([] : List String) == localMetaP) = false by decide]
      simp [hlm1]

theorem fix_meta_shape (u : FS) : MetaShape (fix_meta_files u).1 := by
  rcases metaStep1_cases u with ⟨he, hdlm⟩ | ⟨he, hx⟩ | ⟨he, hx, hd⟩
  · rw [fix_meta_eq_err1 he]
    exact Or.inl hdlm
  · exact fix_meta_shape_from_step1 he hx
  · exact fix_meta_shape_from_step1 he pexists_unlink_self

theorem metaShape_perms {m : FS} (h : MetaShape m) :
    MetaShape (set_permissions m).1 := by
  rcases h with h | ⟨h1, h2, h3⟩ | ⟨h1, h2, h3, h4⟩
    | ⟨h1, h2, h3, h4⟩ | ⟨h1, h2, h3, h4, h5⟩
  · exact Or.inl ((isDirAt_perms m localMetaP).trans h)
  · exact Or.inr (Or.inl ⟨(pexists_perms m localMetaP).trans h1,
      (isDirAt_perms m []).trans h2, (pexists_perms m []).trans h3⟩)
  · exact Or.inr (Or.inr (Or.inl
      ⟨(pexists_perms m localMetaP).trans h1,
        (isDirAt_perms m []).trans h2,
        (isDirAt_perms m metadataP).trans h3,
        (pexists_perms m metadataP).trans h4⟩))
  · exact Or.inr (Or.inr (Or.inr (Or.inl
      ⟨(pexists_perms m localMetaP).trans h1,
        (isDirAt_perms m []).trans h2,
        (isDirAt_perms m metadataP).trans h3,
        (isDirAt_perms m defaultMetaP).trans h4⟩)))
  · rcases canon_perms h2 h1 h4 h5 with ⟨plm, pdx, pall⟩
    exact Or.inr (Or.inr (Or.inr (Or.inr
      ⟨plm, (isDirAt_perms m []).trans h2,
        (isDirAt_perms m metadataP).trans h3, pdx, pall⟩)))

theorem fix_meta_fixed {v : FS} (h : MetaShape v) :
    (fix_meta_files v).1 = v := by
  rcases h with h | ⟨h1, h2, h3⟩ | ⟨h1, h2, h3, h4⟩
    | ⟨h1, h2, h3, h4⟩ | ⟨h1, h2, h3, h4, h5⟩
  · rw [fix_meta_eq_err1 (metaStep1_eq_dir h)]
  · rw [fix_meta_eq_err2 (metaStep1_eq_absent h1)
      (metaStep2_eq_err (ensure_of_file h2 h3))]
  · rw [fix_meta_eq_err2 (metaStep1_eq_absent h1)
      (by rw [metaStep2_eq_ok (ensure_of_isDir h2)]
          exact ensure_of_file h3 h4)]
  · rw [fix_meta_eq_ok (metaStep1_eq_absent h1)
      (by rw [metaStep2_eq_ok (ensure_of_isDir h2)]
          exact ensure_of_isDir h3),
      metaStep3_eq_dir h4]
  · rw [fix_meta_eq_ok (metaStep1_eq_absent h1)
      (by rw [metaStep2_eq_ok (ensure_of_isDir h2)]
          exact ensure_of_isDir h3),
      metaStep3_eq_write
        (allAt_isDirAt_false (fun e he hp => (h5 e he hp).1))]
    show chmodAt (writeFileAt v defaultMetaP
      (Content.text defaultMetaContent)) defaultMetaP filePerms = v
    rw [write_self h4 (fun e he hp => (h5 e he hp).2.1)]
    exact chmod_self (fun e he hp => (h5 e he hp).2.2)

/-- One pipeline pass leaves a tree every tree-level step maps to
itself: running the four steps again changes nothing. -/
theorem treePipe_idem (t : FS) : treePipe (treePipe t) = treePipe t := by
  have hclean : ∀ pat ∈ patternsToRemove, NoMatch (treePipe t) pat :=
    treePipe_noMatch t
  have hconf : ConfShape (treePipe t) :=
    confShape_perms (confShape_meta (conf_shape (clean_app t).fs))
  have hmeta : MetaShape (treePipe t) :=
    metaShape_perms (fix_meta_shape (fix_app_conf (clean_app t).fs).1)
  show (set_permissions
    (fix_meta_files
      (fix_app_conf (clean_app (treePipe t)).fs).1).1).1 = treePipe t
  rw [show (clean_app (treePipe t)).fs = treePipe t from by
      rw [clean_app_id hclean],
    fix_app_conf_fixed hconf, fix_meta_fixed hmeta]
  show (set_permissions (set_permissions
    (fix_meta_files (fix_app_conf (clean_app t).fs).1).1).1).1
    = treePipe t
  rw [set_permissions_idem]
  rfl

theorem create_package_idem (w : World) :
    (create_package (create_package w).1).1 = (create_package w).1 := by
  by_cases hx : pexists w.tree [] = true
  · rw [create_package_eq_ok hx]
    rw [@create_package_eq_ok
      ({ w with cwd := w.parentDir,
                tarball := some (archiveOf w.name w.tree) }) hx]
  · have hx2 : pexists w.tree [] = false := by simpa using hx
    rw [create_package_eq_err hx2]
    rw [@create_package_eq_err
      ({ w with cwd := w.parentDir, tarball := some [] }) hx2]

/-- C7: the whole pipeline is idempotent: running prepare_app twice on
the same state yields exactly the state one run yields — in particular
the canonical default.meta content and the absence of the checksum key,
established by the single run, persist through the second. -/
theorem c7_pipeline_idempotent (w : World) :
    prepare_app (prepare_app w) = prepare_app w := by
  have hL : treePipe ((prepare_app w).tree) = (prepare_app w).tree := by
    rw [prepare_app_tree, treePipe_idem]
  show (create_package
    { prepare_app w with tree := treePipe ((prepare_app w).tree) }).1
    = prepare_app w
  rw [hL]
  rw [show ({ prepare_app w with tree := (prepare_app w).tree } : World)
    = prepare_app w from rfl]
  show (create_package
    (create_package { w with tree := treePipe w.tree }).1).1
    = (create_package { w with tree := treePipe w.tree }).1
  exact create_package_idem _

end Prep

